import Mathlib

/-!
# Verification of the pickleball open-play rotation engine

Shallow embedding of the rotation/matchmaking core of `app.py`:
the waiting queue, court-slot assignment, win processing with
teammate-repetition avoidance, and consecutive-game-streak bookkeeping.

Modelling conventions:
* Players are identified by strings (their names), as in the source.
* Python `None` in a court slot becomes `Option Player` with `none`.
* Python truthiness of a slot value (`if loser:` is false for both `None`
  and the empty string) is modelled by `truthy`.
* The Python dicts `streaks`, `past_teams` and `active` are modelled as
  total functions; a key absent from the dict behaves exactly like the
  dict's default value (`{"on_court":0,"overall":0}`, `set()`, `True`
  respectively), which is what the source's `.get`/`.setdefault` calls
  produce, so the total-function model is observationally identical.
* The mutating Python functions become pure state transformers.
  `process_winner` returns `Option Err × SessionState`: the source
  reports validation failures via `st.error` and returns without touching
  any state, which is modelled by returning `(some e, s)` with the input
  state unchanged.
* `GameRecord` omits the wall-clock timestamp of the source's history
  entry (real time is outside the embedding); all other fields are kept.
* Court ids: the source keys courts by the integers `1..num_courts` in a
  dict iterated in insertion (= ascending) order; the model stores the
  courts in a list in the same order and uses the list index as the id.
  Looking up a non-existent court id raises `KeyError` in Python; the
  model returns `Err.invalidCourt` without touching state.
-/

abbrev Player := String

/-- Per-player streak record, as in `{"on_court": 0, "overall": 0}`. -/
structure Streak where
  on_court : Nat
  overall : Nat
deriving DecidableEq, Repr

/-- A history entry appended by `process_winner` (timestamp omitted). -/
structure GameRecord where
  court : Nat
  team1 : List (Option Player)
  team2 : List (Option Player)
  winning_team : List (Option Player)
deriving DecidableEq, Repr

/-- Validation failures of the engine.  `invalidWinners` and
`invalidWinnerCount` correspond to the two `st.error` early returns of
`process_winner`; `invalidCourt` models the Python `KeyError` raised by
indexing `courts` with an unknown id. -/
inductive Err where
  | invalidWinners
  | invalidWinnerCount
  | invalidCourt
deriving DecidableEq, Repr

/-- Python truthiness of a court-slot value: `None` and `""` are falsy. -/
def truthy (o : Option Player) : Bool := o.getD "" ≠ ""

/-- Update one player's `on_court` streak, leaving `overall` untouched
(the source's `streaks.setdefault(p, …); streaks[p]["on_court"] = v`). -/
def setOnCourt (stk : Player → Streak) (p : Player) (v : Nat) : Player → Streak :=
  fun q => if q = p then { stk p with on_court := v } else stk q

/-- `streaks.get(w, {"on_court": 0})["on_court"]` where `w` may be `None`
(which happens on the cross-team-winners path, where the winning team can
contain an empty slot). -/
def streakOfOpt (stk : Player → Streak) : Option Player → Nat
  | none => 0
  | some p => (stk p).on_court

/-- Python set equality `set(l1) == set(l2)` on lists. -/
def pySetEq [DecidableEq α] (l1 l2 : List α) : Bool :=
  l1.all (· ∈ l2) && l2.all (· ∈ l1)

/-- `itertools.combinations(l, 2)` as ordered pairs. -/
def combinations2 : List α → List (α × α)
  | [] => []
  | x :: xs => xs.map (fun y => (x, y)) ++ combinations2 xs

/-- `mark_pairing(a, b)`: symmetric idempotent insert into `past_teams`. -/
def mark_pairing (pt : Player → List Player) (a b : Player) : Player → List Player :=
  fun p =>
    if p = a then (pt a).insert b
    else if p = b then (pt b).insert a
    else pt p

/-- Lines 143-146 of the source: `for p1,p2 in combinations(team,2): if p1
and p2: mark_pairing(p1,p2)` for one team. -/
def mark_team_pairings (pt : Player → List Player) (team : List (Option Player)) :
    Player → List Player :=
  (combinations2 team).foldl
    (fun pt pr =>
      if truthy pr.1 && truthy pr.2 then mark_pairing pt (pr.1.getD "") (pr.2.getD "") else pt)
    pt

/-- One iteration of the loser loop (lines 149-152). -/
def rotate_step (acc : List Player × (Player → Streak)) (l : Option Player) :
    List Player × (Player → Streak) :=
  if truthy l then (acc.1 ++ [l.getD ""], setOnCourt acc.2 (l.getD "") 0) else acc

/-- Lines 149-152: rotate losers to the queue tail, resetting their
`on_court` streak to 0; empty/falsy slots are skipped. -/
def rotate_losers (losing : List (Option Player)) (q : List Player)
    (stk : Player → Streak) : List Player × (Player → Streak) :=
  losing.foldl rotate_step (q, stk)

/-- Lines 155-162: winners under the streak limit are kept; the rest are
enqueued at the tail with streak reset to 0.  For a `none` entry of the
winning team (possible only on the cross-team path) the keep test reads
streak 0, so the else branch is unreachable whenever `1 ≤ m`; there the
source would raise `KeyError` on `streaks[None]`, modelled as a no-op. -/
def keep_step (m : Nat)
    (acc : List (Option Player) × List Player × (Player → Streak)) (w : Option Player) :
    List (Option Player) × List Player × (Player → Streak) :=
  if streakOfOpt acc.2.2 w < m then (acc.1 ++ [w], acc.2)
  else
    match w with
    | some p => (acc.1, acc.2.1 ++ [p], setOnCourt acc.2.2 p 0)
    | none => acc

def split_keep (m : Nat) (winning : List (Option Player)) (q : List Player)
    (stk : Player → Streak) :
    List (Option Player) × List Player × (Player → Streak) :=
  winning.foldl (keep_step m) ([], q, stk)

/-- Lines 165-170: seed the new layout from the kept winners. -/
def seed_layout : List (Option Player) → List (Option Player)
  | [k0, k1] => [k0, none, k1, none]
  | [k0] => [k0, none, none, none]
  | _ => [none, none, none, none]

/-- Lines 184-188: `p` conflicts if some provisionally placed teammate
`tm` is truthy and `p` is in `past_teams.get(tm, set())`. -/
def conflicts (pt : Player → List Player) (tms : List Player) (p : Player) : Bool :=
  tms.any (fun tm => tm ≠ "" && decide (p ∈ pt tm))

/-- Lines 177-193: scan up to `fuel` queue entries from the front; the
first conflict-free one is returned, conflicting ones are re-appended at
the tail.  `process_winner` calls this with `fuel = q.length`. -/
def scan_queue (pt : Player → List Player) (tms : List Player) :
    Nat → List Player → Option Player × List Player
  | 0, q => (none, q)
  | _ + 1, [] => (none, [])
  | n + 1, p :: rest =>
    if conflicts pt tms p then scan_queue pt tms n (rest ++ [p])
    else (some p, rest)

/-- The mutable data of the slot-filling loop of `process_winner`. -/
structure FillSt where
  layout : List (Option Player)
  queue : List Player
  streaks : Player → Streak

/-- Lines 173-200, one iteration of `for idx in range(4)`: if slot `idx`
is empty, scan the queue for a conflict-free candidate (teammates are the
occupied slots of the same team half of the layout built so far), falling
back to an unconditional dequeue; a truthy candidate is placed with its
`on_court` streak set to 1. -/
def fill_one (pt : Player → List Player) (fs : FillSt) (idx : Nat) : FillSt :=
  match fs.layout.get? idx with
  | some none =>
    let tms : List Player :=
      if idx = 0 ∨ idx = 1 then (fs.layout.take 2).filterMap id
      else (fs.layout.drop 2).filterMap id
    let sc := scan_queue pt tms fs.queue.length fs.queue
    let cq : Option Player × List Player :=
      match sc.1 with
      | some c => (some c, sc.2)
      | none =>
        match sc.2 with
        | [] => (none, [])
        | c :: rest => (some c, rest)
    match cq.1 with
    | some c =>
      if truthy (some c) then
        ⟨fs.layout.set idx (some c), cq.2, setOnCourt fs.streaks c 1⟩
      else ⟨fs.layout, cq.2, fs.streaks⟩
    | none => ⟨fs.layout, cq.2, fs.streaks⟩
  | _ => fs

/-- The whole slot-filling loop `for idx in range(4)`. -/
def fill_all (pt : Player → List Player) (fs : FillSt) : FillSt :=
  [0, 1, 2, 3].foldl (fill_one pt) fs

/-- The session state operated on by the engine (config fields not read
by the engine are omitted; `max_consec_games` is the one config value it
consults). -/
structure SessionState where
  players : List Player
  active : Player → Bool
  queue : List Player
  courts : List (List (Option Player))
  streaks : Player → Streak
  past_teams : Player → List Player
  history : List GameRecord
  max_consec_games : Nat

/-- `process_winner(court_id, winners)`, lines 116-204 of the source. -/
def process_winner (s : SessionState) (court_id : Nat) (winners : List Player) :
    Option Err × SessionState :=
  match s.courts.get? court_id with
  | none => (some Err.invalidCourt, s)
  | some court_players =>
    if ¬ (winners.all (fun w => some w ∈ court_players)) then (some Err.invalidWinners, s)
    else if winners.dedup.length ≠ 2 then (some Err.invalidWinnerCount, s)
    else
      let team1 := court_players.take 2
      let team2 := court_players.drop 2
      let wl :=
        if pySetEq (winners.map some) team1 then (team1, team2) else (team2, team1)
      let winning_team := wl.1
      let losing_team := wl.2
      let hist' := s.history ++ [⟨court_id, team1, team2, winning_team⟩]
      let pt1 := mark_team_pairings s.past_teams team1
      let pt2 := mark_team_pairings pt1 team2
      let r1 := rotate_losers losing_team s.queue s.streaks
      let r2 := split_keep s.max_consec_games winning_team r1.1 r1.2
      let lay0 := seed_layout r2.1
      let fs := fill_all pt2 ⟨lay0, r2.2.1, r2.2.2⟩
      (none,
        { s with
          queue := fs.queue
          streaks := fs.streaks
          past_teams := pt2
          history := hist'
          courts := s.courts.set court_id fs.layout })

/-- One iteration of the `for i in range(4)` loop of
`assign_players_to_court` (lines 102-108), acting on (court, queue,
streaks). -/
def assign_step (acc : List (Option Player) × List Player × (Player → Streak))
    (i : Nat) : List (Option Player) × List Player × (Player → Streak) :=
  match acc.1.get? i with
  | some none =>
    match acc.2.1 with
    | [] => acc
    | p :: rest => (acc.1.set i (some p), rest, setOnCourt acc.2.2 p 1)
  | _ => acc

/-- `assign_players_to_court(court_id)`, lines 101-109.  An unknown court
id raises `KeyError` in Python; modelled as leaving the state unchanged
(no claim exercises that path). -/
def assign_players_to_court (s : SessionState) (court_id : Nat) : SessionState :=
  match s.courts.get? court_id with
  | none => s
  | some court =>
    let r := [0, 1, 2, 3].foldl assign_step (court, s.queue, s.streaks)
    { s with
      courts := s.courts.set court_id r.1
      queue := r.2.1
      streaks := r.2.2 }

/-- `assign_all_courts()`, lines 111-113: every court id in ascending
order. -/
def assign_all_courts (s : SessionState) : SessionState :=
  (List.range s.courts.length).foldl assign_players_to_court s

/-- The spec's `rebuildFromRoster`; embeds
line 86 of the source (the queue-rebuild helper): the queue is replaced
by all active players in roster order. -/
def rebuildFromRoster (s : SessionState) : SessionState :=
  { s with queue := s.players.filter (fun p => s.active p) }

/-- A fresh session state as built by `init()` (lines 62-82): all players
active, queue holding every active player in roster order, all courts
empty, all streaks zero, no pairing history. -/
def init_state (players : List Player) (num_courts max_consec : Nat) : SessionState :=
  { players := players
    active := fun _ => true
    queue := players.filter (fun _ => true)
    courts := (List.range num_courts).map (fun _ => [none, none, none, none])
    streaks := fun _ => ⟨0, 0⟩
    past_teams := fun _ => []
    history := []
    max_consec_games := max_consec }

/-- The players occupying slots of one court. -/
def seatedCourt (c : List (Option Player)) : List Player := c.filterMap id

/-- All seated players across the whole court bank, in slot order. -/
def allSeated (s : SessionState) : List Player := (s.courts.map seatedCourt).flatten

/-- The players seated on every court other than `cid`. -/
def restSeated (s : SessionState) (cid : Nat) : List Player :=
  ((s.courts.take cid).map seatedCourt).flatten ++
    ((s.courts.drop (cid + 1)).map seatedCourt).flatten

/-- The truthy members of a team, in order: exactly the players the loops
guarded by `if loser:` / `if p1 and p2:` act on. -/
def truthyList (l : List (Option Player)) : List Player :=
  l.filterMap (fun o => if truthy o then some (o.getD "") else none)

/-- Reset the `on_court` streak of every member of `ps` to 0, leaving
`overall` and everyone else untouched. -/
def zeroStreaks (ps : List Player) (stk : Player → Streak) : Player → Streak :=
  fun p => if p ∈ ps then { stk p with on_court := 0 } else stk p

/-- The winners that step 6 enqueues instead of keeping: those whose
current streak has reached the limit `m` (empty slots excluded). -/
def pushedOf (m : Nat) (stk : Player → Streak) (winning : List (Option Player)) :
    List Player :=
  (winning.filter (fun w => ¬ streakOfOpt stk w < m)).filterMap id

/-- Following the spec's words for step 8 of win processing: a candidate
conflicts when its own teammate-history contains a player already
provisionally placed in the same team half.  (The source tests the
mirror-image membership `p ∈ past_teams[tm]`; the two agree on symmetric
histories.) -/
def specConflict (pt : Player → List Player) (tms : List Player) (p : Player) : Bool :=
  tms.any (fun tm => tm ∈ pt p)

/-- Following the spec's words for `assignToCourt`: walk the slots in
order, popping one player from the queue front into each empty slot and
setting that player's `on_court` streak to 1; leave slots empty once the
queue is exhausted. -/
def assignSpecFill :
    List (Option Player) → List Player → (Player → Streak) →
      List (Option Player) × List Player × (Player → Streak)
  | [], q, stk => ([], q, stk)
  | none :: slots, [], stk =>
    let r := assignSpecFill slots [] stk
    (none :: r.1, r.2)
  | none :: slots, p :: q, stk =>
    let r := assignSpecFill slots q (setOnCourt stk p 1)
    (some p :: r.1, r.2)
  | some x :: slots, q, stk =>
    let r := assignSpecFill slots q stk
    (some x :: r.1, r.2)

/-- The combined state invariant of the rotation engine: no player is
both queued and seated or seated twice, queued players have streak 0,
seated players have streak 1 (hence within `[1, maxConsecutiveGames]`),
every court has 4 slots, and the configured limit is at least 1. -/
def EngineInv (s : SessionState) : Prop :=
  (s.queue ++ allSeated s).Nodup ∧
  (∀ p ∈ s.queue, (s.streaks p).on_court = 0) ∧
  (∀ p ∈ allSeated s, (s.streaks p).on_court = 1) ∧
  (∀ c ∈ s.courts, c.length = 4) ∧
  1 ≤ s.max_consec_games

/-- The invariant restricted to one court under scrutiny: `rest` lists
the players seated on all other courts. -/
def LocalInv (rest : List Player) (c : List (Option Player)) (q : List Player)
    (stk : Player → Streak) : Prop :=
  (q ++ (seatedCourt c ++ rest)).Nodup ∧
  (∀ p ∈ q, (stk p).on_court = 0) ∧
  (∀ p ∈ seatedCourt c ++ rest, (stk p).on_court = 1)

/-- Relation between streak tables before and after an engine operation:
each player's record is untouched, or its `on_court` field was set to 0
or to 1 (the only writes the source ever performs); `overall` survives in
every case. -/
def StreakUpd (stk stk' : Player → Streak) : Prop :=
  ∀ p, stk' p = stk p ∨ stk' p = { stk p with on_court := 0 } ∨
    stk' p = { stk p with on_court := 1 }

/-- A court with four seated players and empty queue, used to exercise
`process_winner` at concrete inputs. -/
def sFull : SessionState :=
  { players := ["A", "B", "C", "D"]
    active := fun _ => true
    queue := []
    courts := [[some "A", some "B", some "C", some "D"]]
    streaks := fun _ => ⟨1, 0⟩
    past_teams := fun _ => []
    history := []
    max_consec_games := 2 }

/-- Rebuilding the queue while all four players are still seated: the
trace behind the duplication counterexamples. -/
def sDupTrace : SessionState :=
  rebuildFromRoster (assign_all_courts (init_state ["A", "B", "C", "D"] 1 2))

/-- States reachable from a fresh state by the engine's four entry points
(`rebuildFromRoster` included). -/
inductive Reachable : SessionState → Prop
  | init (players : List Player) (nc mc : Nat) (hnd : players.Nodup) (hmc : 1 ≤ mc) :
      Reachable (init_state players nc mc)
  | assign (s : SessionState) (cid : Nat) :
      Reachable s → Reachable (assign_players_to_court s cid)
  | assignAll (s : SessionState) :
      Reachable s → Reachable (assign_all_courts s)
  | win (s : SessionState) (cid : Nat) (winners : List Player) :
      Reachable s → Reachable (process_winner s cid winners).2
  | rebuild (s : SessionState) :
      Reachable s → Reachable (rebuildFromRoster s)

/-- States reachable using only `assignToCourt`, `assignAllCourts` and
`processWin` (no queue rebuild). -/
inductive ReachableCore : SessionState → Prop
  | init (players : List Player) (nc mc : Nat) (hnd : players.Nodup) (hmc : 1 ≤ mc) :
      ReachableCore (init_state players nc mc)
  | assign (s : SessionState) (cid : Nat) :
      ReachableCore s → ReachableCore (assign_players_to_court s cid)
  | assignAll (s : SessionState) :
      ReachableCore s → ReachableCore (assign_all_courts s)
  | win (s : SessionState) (cid : Nat) (winners : List Player) :
      ReachableCore s → ReachableCore (process_winner s cid winners).2

/-! ## Pointwise facts about streak updates -/

theorem setOnCourt_overall (stk : Player → Streak) (p : Player) (v : Nat) (q : Player) :
    (setOnCourt stk p v q).overall = (stk q).overall := by
  unfold setOnCourt; by_cases h : q = p <;> simp [h]

theorem setOnCourt_apply_ne (stk : Player → Streak) (p : Player) (v : Nat) {q : Player}
    (h : q ≠ p) : setOnCourt stk p v q = stk q := by
  simp [setOnCourt, h]

theorem setOnCourt_apply_self (stk : Player → Streak) (p : Player) (v : Nat) :
    setOnCourt stk p v p = { stk p with on_court := v } := by
  simp [setOnCourt]

theorem zeroStreaks_nil (stk : Player → Streak) : zeroStreaks [] stk = stk := by
  funext p; simp [zeroStreaks]

theorem zeroStreaks_cons (a : Player) (S : List Player) (stk : Player → Streak) :
    zeroStreaks (a :: S) stk = zeroStreaks S (setOnCourt stk a 0) := by
  funext p
  by_cases hS : p ∈ S <;> by_cases hpa : p = a <;>
    simp [zeroStreaks, hS, hpa, setOnCourt]

theorem streakOfOpt_set_ne (stk : Player → Streak) (p : Player) (v : Nat)
    {w : Option Player} (h : w ≠ some p) :
    streakOfOpt (setOnCourt stk p v) w = streakOfOpt stk w := by
  cases w with
  | none => rfl
  | some x =>
    have : x ≠ p := by intro e; exact h (by rw [e])
    simp [streakOfOpt, setOnCourt_apply_ne _ _ _ this]

/-! ## Characterization of the loser rotation (lines 149-152) -/

theorem truthyList_cons (l : Option Player) (ls : List (Option Player)) :
    truthyList (l :: ls) =
      if truthy l then l.getD "" :: truthyList ls else truthyList ls := by
  by_cases h : truthy l <;> simp [truthyList, List.filterMap_cons, h]

theorem rotate_losers_eq (losing : List (Option Player)) : ∀ q stk,
    rotate_losers losing q stk =
      (q ++ truthyList losing, zeroStreaks (truthyList losing) stk) := by
  induction losing with
  | nil => intro q stk; simp [rotate_losers, truthyList, zeroStreaks_nil]
  | cons l ls ih =>
    intro q stk
    by_cases h : truthy l
    · have step : rotate_losers (l :: ls) q stk
          = rotate_losers ls (q ++ [l.getD ""]) (setOnCourt stk (l.getD "") 0) := by
        simp [rotate_losers, rotate_step, h]
      rw [step, ih, truthyList_cons]
      simp [h, zeroStreaks_cons]
    · have step : rotate_losers (l :: ls) q stk = rotate_losers ls q stk := by
        simp [rotate_losers, rotate_step, h]
      rw [step, ih, truthyList_cons]
      simp [h]

/-! ## Characterization of the winner keep/enqueue split (lines 155-162) -/

theorem filterMap_id_cons_nodup {w : Option Player} {ws : List (Option Player)}
    (h : ((w :: ws).filterMap id).Nodup) : (ws.filterMap id).Nodup := by
  cases w with
  | none => simpa [List.filterMap_cons] using h
  | some p =>
    rw [List.filterMap_cons] at h
    simp only [id] at h
    exact (List.nodup_cons.mp h).2

theorem split_keep_go (m : Nat) (winning : List (Option Player)) :
    ∀ (acc1 : List (Option Player)) (q : List Player) (stk : Player → Streak),
    (winning.filterMap id).Nodup →
    winning.foldl (keep_step m) (acc1, q, stk) =
      (acc1 ++ winning.filter (fun w => streakOfOpt stk w < m),
       q ++ pushedOf m stk winning,
       zeroStreaks (pushedOf m stk winning) stk) := by
  induction winning with
  | nil => intro acc1 q stk _; simp [pushedOf, zeroStreaks_nil]
  | cons w ws ih =>
    intro acc1 q stk hnd
    have hnd' : (ws.filterMap id).Nodup := filterMap_id_cons_nodup hnd
    by_cases h : streakOfOpt stk w < m
    · have step : keep_step m (acc1, q, stk) w = (acc1 ++ [w], q, stk) := by
        simp [keep_step, h]
      rw [List.foldl_cons, step, ih _ _ _ hnd']
      simp [List.filter_cons, h, pushedOf]
    · have h' : m ≤ streakOfOpt stk w := Nat.le_of_not_lt h
      cases w with
      | none =>
        have step : keep_step m (acc1, q, stk) none = (acc1, q, stk) := by
          simp [keep_step, h]
        rw [List.foldl_cons, step, ih _ _ _ hnd']
        simp [List.filter_cons, h, h', pushedOf, List.filterMap_cons]
      | some p =>
        have hp : p ∉ ws.filterMap id := by
          rw [List.filterMap_cons] at hnd
          simp only [id] at hnd
          exact (List.nodup_cons.mp hnd).1
        have step : keep_step m (acc1, q, stk) (some p)
            = (acc1, q ++ [p], setOnCourt stk p 0) := by
          simp [keep_step, h]
        rw [List.foldl_cons, step, ih _ _ _ hnd']
        have hne : ∀ x ∈ ws, x ≠ some p := by
          intro x hx e
          exact hp (List.mem_filterMap.mpr ⟨some p, e ▸ hx, rfl⟩)
        have hfcong : ws.filter
              (fun w => decide (streakOfOpt (setOnCourt stk p 0) w < m)) =
            ws.filter (fun w => decide (streakOfOpt stk w < m)) := by
          apply List.filter_congr
          intro x hx
          rw [streakOfOpt_set_ne stk p 0 (hne x hx)]
        have hpush : pushedOf m (setOnCourt stk p 0) ws = pushedOf m stk ws := by
          unfold pushedOf
          congr 1
          apply List.filter_congr
          intro x hx
          rw [streakOfOpt_set_ne stk p 0 (hne x hx)]
        have hpc : pushedOf m stk (some p :: ws) = p :: pushedOf m stk ws := by
          simp [pushedOf, List.filter_cons, h, h', List.filterMap_cons]
        rw [hfcong, hpush, hpc, zeroStreaks_cons]
        simp [List.filter_cons, h, h']

theorem split_keep_eq (m : Nat) (winning : List (Option Player)) (q : List Player)
    (stk : Player → Streak) (hnd : (winning.filterMap id).Nodup) :
    split_keep m winning q stk =
      (winning.filter (fun w => streakOfOpt stk w < m),
       q ++ pushedOf m stk winning,
       zeroStreaks (pushedOf m stk winning) stk) := by
  have := split_keep_go m winning [] q stk hnd
  simpa [split_keep] using this

/-! ## The queue scan of the slot-filling loop (lines 177-193) -/

theorem scan_queue_perm (pt : Player → List Player) (tms : List Player) :
    ∀ (fuel : Nat) (q : List Player),
    List.Perm ((scan_queue pt tms fuel q).1.toList ++ (scan_queue pt tms fuel q).2) q := by
  intro fuel
  induction fuel with
  | zero => intro q; simp [scan_queue]
  | succ n ih =>
    intro q
    cases q with
    | nil => simp [scan_queue]
    | cons p rest =>
      by_cases h : conflicts pt tms p
      · have step : scan_queue pt tms (n + 1) (p :: rest)
            = scan_queue pt tms n (rest ++ [p]) := by
          simp [scan_queue, h]
        rw [step]
        exact (ih (rest ++ [p])).trans (List.perm_append_singleton p rest)
      · simp [scan_queue, h]

theorem scan_queue_found (pt : Player → List Player) (tms : List Player) :
    ∀ (pre : List Player) (p : Player) (post : List Player) (fuel : Nat),
    (∀ x ∈ pre, conflicts pt tms x = true) → conflicts pt tms p = false →
    pre.length < fuel →
    scan_queue pt tms fuel (pre ++ p :: post) = (some p, post ++ pre) := by
  intro pre
  induction pre with
  | nil =>
    intro p post fuel _ hp hf
    cases fuel with
    | zero => omega
    | succ n => simp [scan_queue, hp]
  | cons a pre ih =>
    intro p post fuel hc hp hf
    cases fuel with
    | zero => simp at hf
    | succ n =>
      have ha : conflicts pt tms a = true := hc a (List.mem_cons_self a pre)
      have step : scan_queue pt tms (n + 1) ((a :: pre) ++ p :: post)
          = scan_queue pt tms n ((pre ++ p :: post) ++ [a]) := by
        simp [scan_queue, ha]
      rw [step, show (pre ++ p :: post) ++ [a] = pre ++ p :: (post ++ [a]) by simp]
      rw [ih p (post ++ [a]) n (fun x hx => hc x (List.mem_cons_of_mem a hx)) hp (by
        simp at hf ⊢; omega)]
      simp

theorem scan_queue_all_conflict (pt : Player → List Player) (tms : List Player) :
    ∀ (fuel : Nat) (q : List Player),
    (∀ x ∈ q, conflicts pt tms x = true) → fuel ≤ q.length →
    scan_queue pt tms fuel q = (none, q.drop fuel ++ q.take fuel) := by
  intro fuel
  induction fuel with
  | zero => intro q _ _; simp [scan_queue]
  | succ n ih =>
    intro q hc hf
    cases q with
    | nil => simp at hf
    | cons p rest =>
      have hp : conflicts pt tms p = true := hc p (List.mem_cons_self p rest)
      have step : scan_queue pt tms (n + 1) (p :: rest)
          = scan_queue pt tms n (rest ++ [p]) := by
        simp [scan_queue, hp]
      have hn : n ≤ rest.length := by simp at hf; omega
      rw [step, ih (rest ++ [p])
        (fun x hx => by
          rcases List.mem_append.mp hx with h1 | h1
          · exact hc x (List.mem_cons_of_mem p h1)
          · rcases List.mem_singleton.mp h1 with rfl; exact hp)
        (by simp; omega)]
      rw [List.drop_append_of_le_length hn, List.take_append_of_le_length hn]
      simp

theorem scan_queue_none (pt : Player → List Player) (tms : List Player)
    (q : List Player) (hc : ∀ x ∈ q, conflicts pt tms x = true) :
    scan_queue pt tms q.length q = (none, q) := by
  rw [scan_queue_all_conflict pt tms q.length q hc le_rfl]
  simp

/-! ## List decomposition helpers -/

theorem get?_decomp {α : Type} : ∀ (l : List α) (i : Nat) (x : α),
    l.get? i = some x → l.take i ++ x :: l.drop (i + 1) = l := by
  intro l
  induction l with
  | nil => intro i x h; simp [List.get?] at h
  | cons a l ih =>
    intro i x h
    cases i with
    | zero =>
      simp [List.get?] at h
      subst h; simp
    | succ n =>
      simp only [List.get?] at h
      simp only [List.take_succ_cons, List.drop_succ_cons, List.cons_append,
        List.cons.injEq, true_and]
      exact ih n x h

theorem get?_some_lt {α : Type} {l : List α} {i : Nat} {x : α}
    (h : l.get? i = some x) : i < l.length := by
  by_contra hc
  rw [List.get?_eq_none.mpr (Nat.le_of_not_lt hc)] at h
  simp at h

theorem set_same {α : Type} {l : List α} {i : Nat} {x : α}
    (h : l.get? i = some x) : l.set i x = l := by
  rw [List.set_eq_take_cons_drop x (get?_some_lt h)]
  exact get?_decomp l i x h

/-! ## Seated players and the court bank -/

theorem seatedCourt_set_none {c : List (Option Player)} {i : Nat}
    (h : c.get? i = some none) (p : Player) :
    List.Perm (seatedCourt (c.set i (some p))) (p :: seatedCourt c) := by
  have hd := get?_decomp c i none h
  have hl := get?_some_lt h
  rw [List.set_eq_take_cons_drop _ hl]
  have h1 : seatedCourt (c.take i ++ some p :: c.drop (i + 1))
      = seatedCourt (c.take i) ++ p :: seatedCourt (c.drop (i + 1)) := by
    simp [seatedCourt, List.filterMap_cons]
  have h2 : seatedCourt c = seatedCourt (c.take i) ++ seatedCourt (c.drop (i + 1)) := by
    conv_lhs => rw [← hd]
    simp [seatedCourt, List.filterMap_cons]
  rw [h1, h2]
  exact List.perm_middle

theorem allSeated_eq {s : SessionState} {cid : Nat} {c : List (Option Player)}
    (h : s.courts.get? cid = some c) :
    List.Perm (allSeated s) (seatedCourt c ++ restSeated s cid) := by
  have hd := get?_decomp s.courts cid c h
  unfold allSeated restSeated
  conv_lhs => rw [← hd]
  rw [List.map_append, List.map_cons, List.flatten_append, List.flatten_cons]
  have h1 := (@List.perm_append_comm _
    (((s.courts.take cid).map seatedCourt).flatten) (seatedCourt c)).append_right
      ((s.courts.drop (cid + 1)).map seatedCourt).flatten
  simpa [List.append_assoc] using h1

theorem allSeated_set {s : SessionState} {cid : Nat} {c : List (Option Player)}
    (h : s.courts.get? cid = some c) (lay : List (Option Player)) :
    List.Perm (((s.courts.set cid lay).map seatedCourt).flatten)
      (seatedCourt lay ++ restSeated s cid) := by
  have hl := get?_some_lt h
  rw [List.set_eq_take_cons_drop _ hl]
  unfold restSeated
  rw [List.map_append, List.map_cons, List.flatten_append, List.flatten_cons]
  have h1 := (@List.perm_append_comm _
    (((s.courts.take cid).map seatedCourt).flatten) (seatedCourt lay)).append_right
      ((s.courts.drop (cid + 1)).map seatedCourt).flatten
  simpa [List.append_assoc] using h1

theorem courts4_set {courts : List (List (Option Player))} {cid : Nat}
    {lay : List (Option Player)}
    (h4 : ∀ c ∈ courts, c.length = 4) (hlay : lay.length = 4) :
    ∀ c ∈ courts.set cid lay, c.length = 4 := by
  intro c hc
  rcases List.mem_or_eq_of_mem_set hc with h | rfl
  · exact h4 c h
  · exact hlay

/-! ## Invariant preservation: court assignment -/

theorem assign_step_localinv {rest : List Player} (c : List (Option Player))
    (q : List Player) (stk : Player → Streak) (i : Nat)
    (h : LocalInv rest c q stk) :
    LocalInv rest (assign_step (c, q, stk) i).1 (assign_step (c, q, stk) i).2.1
        (assign_step (c, q, stk) i).2.2 ∧
      (assign_step (c, q, stk) i).1.length = c.length := by
  obtain ⟨hnd, hq0, hs1⟩ := h
  unfold assign_step
  cases hget : c.get? i with
  | none => exact ⟨⟨hnd, hq0, hs1⟩, rfl⟩
  | some slot =>
    cases slot with
    | some p => exact ⟨⟨hnd, hq0, hs1⟩, rfl⟩
    | none =>
      cases q with
      | nil => exact ⟨⟨hnd, hq0, hs1⟩, rfl⟩
      | cons p q' =>
        simp only
        have hnd' : (p :: (q' ++ (seatedCourt c ++ rest))).Nodup := by
          simpa using hnd
        have hpq : p ∉ q' := fun hmem =>
          (List.nodup_cons.mp hnd').1 (List.mem_append_left _ hmem)
        have hpX : p ∉ seatedCourt c ++ rest := fun hmem =>
          (List.nodup_cons.mp hnd').1 (List.mem_append_right _ hmem)
        have hperm0 := seatedCourt_set_none hget p
        have step1 : List.Perm (seatedCourt (c.set i (some p)) ++ rest)
            ((p :: seatedCourt c) ++ rest) := hperm0.append_right rest
        have step2 : List.Perm (q' ++ (seatedCourt (c.set i (some p)) ++ rest))
            (q' ++ (p :: (seatedCourt c ++ rest))) := by
          have := List.Perm.append_left q' step1
          simpa using this
        have hperm1 : List.Perm (q' ++ (seatedCourt (c.set i (some p)) ++ rest))
            (p :: (q' ++ (seatedCourt c ++ rest))) :=
          step2.trans List.perm_middle
        refine ⟨⟨?_, ?_, ?_⟩, by simp⟩
        · exact hperm1.nodup_iff.mpr hnd'
        · intro x hx
          have hxp : x ≠ p := fun e => hpq (e ▸ hx)
          rw [setOnCourt_apply_ne _ _ _ hxp]
          exact hq0 x (List.mem_cons_of_mem p hx)
        · intro x hx
          have hx' : x ∈ (p :: seatedCourt c) ++ rest :=
            (step1.mem_iff).mp hx
          rcases List.mem_append.mp hx' with h1 | h1
          · rcases List.mem_cons.mp h1 with rfl | h2
            · rw [setOnCourt_apply_self]
            · have hxp : x ≠ p := fun e =>
                hpX (e ▸ (List.mem_append_left _ h2))
              rw [setOnCourt_apply_ne _ _ _ hxp]
              exact hs1 x (List.mem_append_left _ h2)
          · have hxp : x ≠ p := fun e => hpX (e ▸ (List.mem_append_right _ h1))
            rw [setOnCourt_apply_ne _ _ _ hxp]
            exact hs1 x (List.mem_append_right _ h1)

theorem assign_fold_localinv (rest : List Player) :
    ∀ (idxs : List Nat) (c : List (Option Player)) (q : List Player)
      (stk : Player → Streak),
    LocalInv rest c q stk →
    LocalInv rest (idxs.foldl assign_step (c, q, stk)).1
        (idxs.foldl assign_step (c, q, stk)).2.1
        (idxs.foldl assign_step (c, q, stk)).2.2 ∧
      (idxs.foldl assign_step (c, q, stk)).1.length = c.length := by
  intro idxs
  induction idxs with
  | nil => intro c q stk h; exact ⟨h, rfl⟩
  | cons i idxs ih =>
    intro c q stk h
    rw [List.foldl_cons]
    obtain ⟨h1, hlen⟩ := assign_step_localinv c q stk i h
    have := ih (assign_step (c, q, stk) i).1 (assign_step (c, q, stk) i).2.1
      (assign_step (c, q, stk) i).2.2 h1
    exact ⟨this.1, this.2.trans hlen⟩

theorem localinv_of_inv {s : SessionState} {cid : Nat} {c : List (Option Player)}
    (hs : EngineInv s) (hget : s.courts.get? cid = some c) :
    LocalInv (restSeated s cid) c s.queue s.streaks := by
  obtain ⟨hnd, hq0, hs1, h4, hm⟩ := hs
  have hperm := allSeated_eq hget
  refine ⟨?_, hq0, ?_⟩
  · have h2 : List.Perm (s.queue ++ allSeated s)
        (s.queue ++ (seatedCourt c ++ restSeated s cid)) :=
      List.Perm.append_left _ hperm
    exact h2.nodup_iff.mp hnd
  · intro x hx
    exact hs1 x (hperm.mem_iff.mpr hx)

theorem inv_reassemble {s : SessionState} {cid : Nat} {c : List (Option Player)}
    (hget : s.courts.get? cid = some c)
    {lay : List (Option Player)} {q' : List Player} {stk' : Player → Streak}
    (hL : LocalInv (restSeated s cid) lay q' stk') (hlay : lay.length = 4)
    (h4 : ∀ c' ∈ s.courts, c'.length = 4) (hm : 1 ≤ s.max_consec_games)
    {s' : SessionState}
    (hc' : s'.courts = s.courts.set cid lay) (hq' : s'.queue = q')
    (hstk' : s'.streaks = stk') (hm' : s'.max_consec_games = s.max_consec_games) :
    EngineInv s' := by
  obtain ⟨hnd, hq0, hs1⟩ := hL
  have hperm : List.Perm (allSeated s') (seatedCourt lay ++ restSeated s cid) := by
    rw [show allSeated s' = ((s.courts.set cid lay).map seatedCourt).flatten by
      rw [allSeated, hc']]
    exact allSeated_set hget lay
  refine ⟨?_, ?_, ?_, ?_, ?_⟩
  · rw [hq']
    have h2 : List.Perm (q' ++ allSeated s')
        (q' ++ (seatedCourt lay ++ restSeated s cid)) :=
      List.Perm.append_left _ hperm
    exact h2.nodup_iff.mpr hnd
  · rw [hq', hstk']; exact hq0
  · intro x hx
    rw [hstk']
    exact hs1 x (hperm.mem_iff.mp hx)
  · rw [hc']; exact courts4_set h4 hlay
  · rw [hm']; exact hm

theorem assign_preserves_inv {s : SessionState} (hs : EngineInv s) (cid : Nat) :
    EngineInv (assign_players_to_court s cid) := by
  unfold assign_players_to_court
  cases hget : s.courts.get? cid with
  | none => exact hs
  | some court =>
    simp only
    obtain ⟨hL, hlen⟩ := assign_fold_localinv (restSeated s cid) [0, 1, 2, 3]
      court s.queue s.streaks (localinv_of_inv hs hget)
    have h4 := hs.2.2.2.1
    have hcourtlen : court.length = 4 := h4 court (List.get?_mem hget)
    exact inv_reassemble hget hL (hlen.trans hcourtlen) h4 hs.2.2.2.2 rfl rfl rfl rfl

theorem assign_fold_inv : ∀ (idxs : List Nat) (s : SessionState),
    EngineInv s → EngineInv (idxs.foldl assign_players_to_court s) := by
  intro idxs
  induction idxs with
  | nil => intro s h; exact h
  | cons i idxs ih =>
    intro s h
    rw [List.foldl_cons]
    exact ih _ (assign_preserves_inv h i)

theorem assign_all_preserves_inv {s : SessionState} (hs : EngineInv s) :
    EngineInv (assign_all_courts s) :=
  assign_fold_inv _ s hs

theorem init_inv (players : List Player) (nc mc : Nat) (hnd : players.Nodup)
    (hmc : 1 ≤ mc) : EngineInv (init_state players nc mc) := by
  have hseat : allSeated (init_state players nc mc) = [] := by
    simp [allSeated, init_state, seatedCourt, List.flatten_eq_nil_iff]
  refine ⟨?_, ?_, ?_, ?_, hmc⟩
  · rw [hseat]
    simpa [init_state] using hnd
  · intro p _
    rfl
  · intro p hp
    rw [hseat] at hp
    simp at hp
  · intro c hc
    simp only [init_state] at hc
    rcases List.mem_map.mp hc with ⟨n, _, rfl⟩
    rfl

/-! ## Invariant preservation: the slot-filling loop -/

theorem place_localinv {rest : List Player} {lay : List (Option Player)}
    {q q2 : List Player} {stk : Player → Streak} {idx : Nat} {c : Player}
    (hget : lay.get? idx = some none)
    (hperm : List.Perm (c :: q2) q)
    (h : LocalInv rest lay q stk) :
    LocalInv rest (lay.set idx (some c)) q2 (setOnCourt stk c 1) := by
  obtain ⟨hnd, hq0, hs1⟩ := h
  have hnd2 : ((c :: q2) ++ (seatedCourt lay ++ rest)).Nodup :=
    ((hperm.append_right _).nodup_iff).mpr hnd
  have hnd2' : (c :: (q2 ++ (seatedCourt lay ++ rest))).Nodup := by simpa using hnd2
  have hcq : c ∉ q2 := fun hmem =>
    (List.nodup_cons.mp hnd2').1 (List.mem_append_left _ hmem)
  have hcX : c ∉ seatedCourt lay ++ rest := fun hmem =>
    (List.nodup_cons.mp hnd2').1 (List.mem_append_right _ hmem)
  have hperm0 := seatedCourt_set_none hget c
  have step1 : List.Perm (seatedCourt (lay.set idx (some c)) ++ rest)
      ((c :: seatedCourt lay) ++ rest) := hperm0.append_right rest
  have step2 : List.Perm (q2 ++ (seatedCourt (lay.set idx (some c)) ++ rest))
      (q2 ++ (c :: (seatedCourt lay ++ rest))) := by
    have := List.Perm.append_left q2 step1
    simpa using this
  have hperm1 : List.Perm (q2 ++ (seatedCourt (lay.set idx (some c)) ++ rest))
      (c :: (q2 ++ (seatedCourt lay ++ rest))) :=
    step2.trans List.perm_middle
  refine ⟨hperm1.nodup_iff.mpr hnd2', ?_, ?_⟩
  · intro x hx
    have hxc : x ≠ c := fun e => hcq (e ▸ hx)
    rw [setOnCourt_apply_ne _ _ _ hxc]
    exact hq0 x (hperm.mem_iff.mp (List.mem_cons_of_mem c hx))
  · intro x hx
    have hx' : x ∈ (c :: seatedCourt lay) ++ rest := (step1.mem_iff).mp hx
    rcases List.mem_append.mp hx' with h1 | h1
    · rcases List.mem_cons.mp h1 with rfl | h2
      · rw [setOnCourt_apply_self]
      · have hxc : x ≠ c := fun e => hcX (e ▸ (List.mem_append_left _ h2))
        rw [setOnCourt_apply_ne _ _ _ hxc]
        exact hs1 x (List.mem_append_left _ h2)
    · have hxc : x ≠ c := fun e => hcX (e ▸ (List.mem_append_right _ h1))
      rw [setOnCourt_apply_ne _ _ _ hxc]
      exact hs1 x (List.mem_append_right _ h1)

theorem drop_localinv {rest : List Player} {lay : List (Option Player)}
    {q q2 : List Player} {stk : Player → Streak} {c : Player}
    (hperm : List.Perm (c :: q2) q)
    (h : LocalInv rest lay q stk) :
    LocalInv rest lay q2 stk := by
  obtain ⟨hnd, hq0, hs1⟩ := h
  have hnd2 : ((c :: q2) ++ (seatedCourt lay ++ rest)).Nodup :=
    ((hperm.append_right _).nodup_iff).mpr hnd
  have hnd2' : (c :: (q2 ++ (seatedCourt lay ++ rest))).Nodup := by simpa using hnd2
  refine ⟨(List.nodup_cons.mp hnd2').2, ?_, hs1⟩
  intro x hx
  exact hq0 x (hperm.mem_iff.mp (List.mem_cons_of_mem c hx))

theorem fill_one_localinv {rest : List Player} (pt : Player → List Player)
    (lay : List (Option Player)) (q : List Player) (stk : Player → Streak) (idx : Nat)
    (h : LocalInv rest lay q stk) :
    LocalInv rest (fill_one pt ⟨lay, q, stk⟩ idx).layout
        (fill_one pt ⟨lay, q, stk⟩ idx).queue (fill_one pt ⟨lay, q, stk⟩ idx).streaks ∧
      (fill_one pt ⟨lay, q, stk⟩ idx).layout.length = lay.length := by
  unfold fill_one
  cases hget : lay.get? idx with
  | none => exact ⟨h, rfl⟩
  | some slot =>
    cases slot with
    | some p => exact ⟨h, rfl⟩
    | none =>
      simp only
      generalize (if idx = 0 ∨ idx = 1 then (lay.take 2).filterMap id
        else (lay.drop 2).filterMap id) = tms
      have hp := scan_queue_perm pt tms q.length q
      rcases hsc : scan_queue pt tms q.length q with ⟨cand, q1⟩
      rw [hsc] at hp
      cases cand with
      | some c =>
        simp only [Option.toList] at hp
        simp only
        by_cases htr : truthy (some c)
        · simp only [htr, if_true]
          exact ⟨place_localinv hget (by simpa using hp) h, by simp⟩
        · simp only [htr]
          simp only [Bool.false_eq_true, if_false]
          exact ⟨drop_localinv (by simpa using hp) h, trivial⟩
      | none =>
        simp only [Option.toList, List.nil_append] at hp
        cases q1 with
        | nil =>
          simp only
          have hq : q = [] := hp.symm.eq_nil
          subst hq
          exact ⟨h, trivial⟩
        | cons c q2 =>
          simp only
          by_cases htr : truthy (some c)
          · simp only [htr, if_true]
            exact ⟨place_localinv hget hp h, by simp⟩
          · simp only [htr]
            simp only [Bool.false_eq_true, if_false]
            exact ⟨drop_localinv hp h, trivial⟩

theorem fill_fold_localinv {rest : List Player} (pt : Player → List Player) :
    ∀ (idxs : List Nat) (lay : List (Option Player)) (q : List Player)
      (stk : Player → Streak),
    LocalInv rest lay q stk →
    LocalInv rest (idxs.foldl (fill_one pt) ⟨lay, q, stk⟩).layout
        (idxs.foldl (fill_one pt) ⟨lay, q, stk⟩).queue
        (idxs.foldl (fill_one pt) ⟨lay, q, stk⟩).streaks ∧
      (idxs.foldl (fill_one pt) ⟨lay, q, stk⟩).layout.length = lay.length := by
  intro idxs
  induction idxs with
  | nil => intro lay q stk h; exact ⟨h, rfl⟩
  | cons i idxs ih =>
    intro lay q stk h
    rw [List.foldl_cons]
    obtain ⟨h1, hlen⟩ := fill_one_localinv pt lay q stk i h
    have := ih (fill_one pt ⟨lay, q, stk⟩ i).layout (fill_one pt ⟨lay, q, stk⟩ i).queue
      (fill_one pt ⟨lay, q, stk⟩ i).streaks h1
    exact ⟨this.1, this.2.trans hlen⟩

theorem fill_all_localinv {rest : List Player} (pt : Player → List Player)
    (lay : List (Option Player)) (q : List Player) (stk : Player → Streak)
    (h : LocalInv rest lay q stk) :
    LocalInv rest (fill_all pt ⟨lay, q, stk⟩).layout (fill_all pt ⟨lay, q, stk⟩).queue
        (fill_all pt ⟨lay, q, stk⟩).streaks ∧
      (fill_all pt ⟨lay, q, stk⟩).layout.length = lay.length :=
  fill_fold_localinv pt [0, 1, 2, 3] lay q stk h

/-! ## Invariant preservation: win processing -/

theorem zeroStreaks_on_court_mem {S : List Player} (stk : Player → Streak) {p : Player}
    (h : p ∈ S) : (zeroStreaks S stk p).on_court = 0 := by
  simp [zeroStreaks, h]

theorem zeroStreaks_not_mem {S : List Player} (stk : Player → Streak) {p : Player}
    (h : p ∉ S) : zeroStreaks S stk p = stk p := by
  simp [zeroStreaks, h]

theorem zeroStreaks_zero {S : List Player} (stk : Player → Streak) {p : Player}
    (h : (stk p).on_court = 0) : (zeroStreaks S stk p).on_court = 0 := by
  by_cases hm : p ∈ S
  · exact zeroStreaks_on_court_mem stk hm
  · rw [zeroStreaks_not_mem stk hm]; exact h

theorem truthyList_eq (l : List (Option Player)) :
    truthyList l = (l.filterMap id).filter (fun p => decide ¬ p = "") := by
  induction l with
  | nil => rfl
  | cons o ls ih =>
    cases o with
    | none => simpa [truthyList, List.filterMap_cons] using ih
    | some p =>
      by_cases hp : p = ""
      · subst hp
        simp [truthyList, List.filterMap_cons, List.filter_cons, truthy] at ih ⊢
        exact ih
      · simp [truthyList, List.filterMap_cons, List.filter_cons, truthy, hp] at ih ⊢
        exact ih

theorem seed_layout_length (keep : List (Option Player)) :
    (seed_layout keep).length = 4 := by
  unfold seed_layout
  split <;> rfl

theorem seated_seed_sublist (keep : List (Option Player)) :
    List.Sublist (seatedCourt (seed_layout keep)) (seatedCourt keep) := by
  match keep with
  | [k0, k1] =>
    have he : seatedCourt [k0, none, k1, none] = seatedCourt [k0, k1] := by
      cases k0 <;> cases k1 <;> rfl
    show List.Sublist (seatedCourt [k0, none, k1, none]) (seatedCourt [k0, k1])
    rw [he]
  | [k0] =>
    have he : seatedCourt [k0, none, none, none] = seatedCourt [k0] := by
      cases k0 <;> rfl
    show List.Sublist (seatedCourt [k0, none, none, none]) (seatedCourt [k0])
    rw [he]
  | [] =>
    show List.Sublist (seatedCourt [none, none, none, none]) (seatedCourt ([] : List (Option Player)))
    exact List.nil_sublist _
  | k0 :: k1 :: k2 :: rest =>
    show List.Sublist (seatedCourt [none, none, none, none])
      (seatedCourt (k0 :: k1 :: k2 :: rest))
    exact List.nil_sublist _

theorem rotate_split_localinv {rest : List Player}
    {court winning losing : List (Option Player)} {q : List Player}
    {stk : Player → Streak} (m : Nat)
    (hL : LocalInv rest court q stk)
    (hperm : List.Perm (seatedCourt court) (seatedCourt winning ++ seatedCourt losing)) :
    LocalInv rest
      (seed_layout (split_keep m winning (rotate_losers losing q stk).1
          (rotate_losers losing q stk).2).1)
      (split_keep m winning (rotate_losers losing q stk).1
          (rotate_losers losing q stk).2).2.1
      (split_keep m winning (rotate_losers losing q stk).1
          (rotate_losers losing q stk).2).2.2 := by
  obtain ⟨hnd, hq0, hs1⟩ := hL
  -- abbreviations
  set S := seatedCourt court with hSdef
  set W := seatedCourt winning with hWdef
  set L := seatedCourt losing with hLdef
  -- structural nodup facts
  have hqnd := List.nodup_append.mp hnd
  have hSR : (S ++ rest).Nodup := hqnd.2.1
  have hSRsplit := List.nodup_append.mp hSR
  have hSnd : S.Nodup := hSRsplit.1
  have hdisjSrest : S.Disjoint rest := hSRsplit.2.2
  have hWL : (W ++ L).Nodup := hperm.nodup_iff.mp hSnd
  have hWLsplit := List.nodup_append.mp hWL
  have hWnd : W.Nodup := hWLsplit.1
  have hdisjWL : W.Disjoint L := hWLsplit.2.2
  -- rewrite the two bookkeeping passes by their characterizations
  have hWnd' : (winning.filterMap id).Nodup := hWnd
  rw [rotate_losers_eq]
  simp only
  rw [split_keep_eq _ _ _ _ hWnd']
  simp only
  set C := truthyList losing with hCdef
  set stk1 := zeroStreaks C stk with hstk1def
  set keep := winning.filter (fun w => streakOfOpt stk1 w < m) with hkeepdef
  set B := pushedOf m stk1 winning with hBdef
  set A := seatedCourt keep with hAdef
  set lay0 := seed_layout keep with hlay0def
  -- the C/E split of the losers and the A/B split of the winners
  have hC : List.Perm (C ++ (losing.filterMap id).filter
      (fun p => !decide ¬ p = "")) L := by
    rw [hCdef, truthyList_eq]
    exact List.filter_append_perm _ _
  set E := (losing.filterMap id).filter (fun p => !decide ¬ p = "") with hEdef
  have hAB : List.Perm (A ++ B) W := by
    rw [hAdef, hBdef, hkeepdef]
    show List.Perm ((winning.filter _).filterMap id ++ pushedOf m stk1 winning) W
    rw [hWdef]
    unfold pushedOf seatedCourt
    rw [← List.filterMap_append]
    apply List.Perm.filterMap
    have h2 := List.filter_append_perm (fun w => decide (streakOfOpt stk1 w < m)) winning
    have h3 : (fun x => !decide (streakOfOpt stk1 x < m)) =
        (fun w => decide (¬ streakOfOpt stk1 w < m)) := by
      funext x
      rw [decide_not]
    rw [h3] at h2
    exact h2
  have hABnd : (A ++ B).Nodup := hAB.nodup_iff.mpr hWnd
  have hdisjAB : A.Disjoint B := (List.nodup_append.mp hABnd).2.2
  -- subset facts
  have hAsubW : ∀ x ∈ A, x ∈ W := fun x hx =>
    (List.Sublist.filterMap id (List.filter_sublist _)).subset hx
  have hBsubW : ∀ x ∈ B, x ∈ W := fun x hx =>
    (List.Sublist.filterMap id (List.filter_sublist _)).subset hx
  have hCsubL : ∀ x ∈ C, x ∈ L := fun x hx => by
    rw [hCdef, truthyList_eq] at hx
    exact (List.filter_sublist _).subset hx
  -- the combined permutation of everything
  have hS2 : List.Perm S ((A ++ B) ++ (C ++ E)) :=
    hperm.trans (List.Perm.append hAB.symm hC.symm)
  have hBig : List.Perm ((((q ++ C) ++ B) ++ (A ++ rest)) ++ E)
      (q ++ (S ++ rest)) := by
    rw [List.perm_iff_count]
    intro a
    have hcnt := hS2.count_eq a
    simp only [List.count_append] at hcnt ⊢
    omega
  have hBigNd : ((((q ++ C) ++ B) ++ (A ++ rest)) ++ E).Nodup :=
    hBig.nodup_iff.mpr hnd
  have hMidNd : (((q ++ C) ++ B) ++ (A ++ rest)).Nodup :=
    List.Nodup.sublist (List.sublist_append_left _ _) hBigNd
  -- membership exclusions for the streak goals
  have hWinS : ∀ x ∈ W, x ∈ S := fun x hx =>
    hperm.mem_iff.mpr (List.mem_append_left _ hx)
  have hLinS : ∀ x ∈ L, x ∈ S := fun x hx =>
    hperm.mem_iff.mpr (List.mem_append_right _ hx)
  refine ⟨?_, ?_, ?_⟩
  · -- Nodup
    have hsub : List.Sublist (((q ++ C) ++ B) ++ (seatedCourt lay0 ++ rest))
        (((q ++ C) ++ B) ++ (A ++ rest)) := by
      apply List.Sublist.append_left
      exact List.Sublist.append_right (seated_seed_sublist keep) rest
    exact List.Nodup.sublist hsub hMidNd
  · -- queued players have streak 0
    intro x hx
    rcases List.mem_append.mp hx with hx1 | hxB
    · rcases List.mem_append.mp hx1 with hxq | hxC
      · exact zeroStreaks_zero _ (zeroStreaks_zero _ (hq0 x hxq))
      · exact zeroStreaks_zero _ (zeroStreaks_on_court_mem _ hxC)
    · exact zeroStreaks_on_court_mem _ hxB
  · -- seated players have streak 1
    intro x hx
    rcases List.mem_append.mp hx with hxA | hxrest
    · have hxA' : x ∈ A := (seated_seed_sublist keep).subset hxA
      have hxW : x ∈ W := hAsubW x hxA'
      have hxS : x ∈ S := hWinS x hxW
      have hxnB : x ∉ B := fun hB => hdisjAB hxA' hB
      have hxnC : x ∉ C := fun hC' => hdisjWL hxW (hCsubL x hC')
      rw [zeroStreaks_not_mem _ hxnB, hstk1def, zeroStreaks_not_mem _ hxnC]
      exact hs1 x (List.mem_append_left _ hxS)
    · have hxnS : x ∉ S := fun hS' => hdisjSrest hS' hxrest
      have hxnB : x ∉ B := fun hB => hxnS (hWinS x (hBsubW x hB))
      have hxnC : x ∉ C := fun hC' => hxnS (hLinS x (hCsubL x hC'))
      rw [zeroStreaks_not_mem _ hxnB, hstk1def, zeroStreaks_not_mem _ hxnC]
      exact hs1 x (List.mem_append_right _ hxrest)

theorem seatedCourt_append (a b : List (Option Player)) :
    seatedCourt (a ++ b) = seatedCourt a ++ seatedCourt b := by
  unfold seatedCourt
  exact List.filterMap_append a b id

theorem seatedCourt_take_drop (court : List (Option Player)) :
    List.Perm (seatedCourt court)
      (seatedCourt (court.take 2) ++ seatedCourt (court.drop 2)) := by
  conv_lhs => rw [← List.take_append_drop 2 court]
  rw [seatedCourt_append]

theorem seatedCourt_drop_take (court : List (Option Player)) :
    List.Perm (seatedCourt court)
      (seatedCourt (court.drop 2) ++ seatedCourt (court.take 2)) :=
  (seatedCourt_take_drop court).trans List.perm_append_comm

theorem process_winner_inv {s : SessionState} (hs : EngineInv s) (cid : Nat)
    (winners : List Player) : EngineInv (process_winner s cid winners).2 := by
  have h4 := hs.2.2.2.1
  have hm := hs.2.2.2.2
  unfold process_winner
  cases hget : s.courts.get? cid with
  | none => exact hs
  | some court =>
    simp only
    split
    · exact hs
    · split
      · exact hs
      · have hL := localinv_of_inv hs hget
        have hc4 : court.length = 4 := h4 court (List.get?_mem hget)
        split
        · -- winners matched team 1: winning = take 2, losing = drop 2
          simp only
          have hCore := rotate_split_localinv s.max_consec_games hL
            (seatedCourt_take_drop court)
          have hFill := fill_all_localinv
            (mark_team_pairings (mark_team_pairings s.past_teams (court.take 2))
              (court.drop 2)) _ _ _ hCore
          exact inv_reassemble hget hFill.1 (hFill.2.trans (seed_layout_length _))
            h4 hm rfl rfl rfl rfl
        · -- winners did not match team 1: winning = drop 2, losing = take 2
          simp only
          have hCore := rotate_split_localinv s.max_consec_games hL
            (seatedCourt_drop_take court)
          have hFill := fill_all_localinv
            (mark_team_pairings (mark_team_pairings s.past_teams (court.take 2))
              (court.drop 2)) _ _ _ hCore
          exact inv_reassemble hget hFill.1 (hFill.2.trans (seed_layout_length _))
            h4 hm rfl rfl rfl rfl

/-! ## Reachability and the combined invariant -/

theorem reachableCore_inv {s : SessionState} (h : ReachableCore s) : EngineInv s := by
  induction h with
  | init players nc mc hnd hmc => exact init_inv players nc mc hnd hmc
  | assign s cid _ ih => exact assign_preserves_inv ih cid
  | assignAll s _ ih => exact assign_all_preserves_inv ih
  | win s cid winners _ ih => exact process_winner_inv ih cid winners

/-! ## Symmetry of the pairing history -/

theorem mark_pairing_mem (pt : Player → List Player) (x y a b : Player) :
    a ∈ mark_pairing pt x y b ↔
      (a ∈ pt b ∨ (b = x ∧ a = y) ∨ (b = y ∧ a = x)) := by
  unfold mark_pairing
  by_cases hbx : b = x
  · subst hbx
    by_cases hby : b = y
    · subst hby
      simp [List.mem_insert_iff]
      tauto
    · simp [List.mem_insert_iff, hby]
      tauto
  · by_cases hby : b = y
    · subst hby
      simp [List.mem_insert_iff, hbx]
      tauto
    · simp [hbx, hby]

theorem mark_pairing_sym {pt : Player → List Player}
    (h : ∀ a b, a ∈ pt b ↔ b ∈ pt a) (x y : Player) :
    ∀ a b, a ∈ mark_pairing pt x y b ↔ b ∈ mark_pairing pt x y a := by
  intro a b
  rw [mark_pairing_mem, mark_pairing_mem]
  constructor
  · rintro (h1 | ⟨rfl, rfl⟩ | ⟨rfl, rfl⟩)
    · exact Or.inl ((h a b).mp h1)
    · exact Or.inr (Or.inr ⟨rfl, rfl⟩)
    · exact Or.inr (Or.inl ⟨rfl, rfl⟩)
  · rintro (h1 | ⟨rfl, rfl⟩ | ⟨rfl, rfl⟩)
    · exact Or.inl ((h b a).mp h1)
    · exact Or.inr (Or.inr ⟨rfl, rfl⟩)
    · exact Or.inr (Or.inl ⟨rfl, rfl⟩)

theorem mark_team_sym {pt : Player → List Player}
    (h : ∀ a b, a ∈ pt b ↔ b ∈ pt a) (team : List (Option Player)) :
    ∀ a b, a ∈ mark_team_pairings pt team b ↔ b ∈ mark_team_pairings pt team a := by
  unfold mark_team_pairings
  generalize combinations2 team = prs
  induction prs generalizing pt with
  | nil => exact h
  | cons pr prs ih =>
    rw [List.foldl_cons]
    by_cases hc : truthy pr.1 && truthy pr.2
    · rw [if_pos hc]
      exact ih (mark_pairing_sym h _ _)
    · rw [if_neg hc]
      exact ih h

theorem assign_past_teams (s : SessionState) (cid : Nat) :
    (assign_players_to_court s cid).past_teams = s.past_teams := by
  unfold assign_players_to_court
  cases s.courts.get? cid <;> rfl

theorem assign_all_past_teams (s : SessionState) :
    (assign_all_courts s).past_teams = s.past_teams := by
  unfold assign_all_courts
  generalize List.range s.courts.length = idxs
  induction idxs generalizing s with
  | nil => rfl
  | cons i idxs ih =>
    rw [List.foldl_cons, ih, assign_past_teams]

theorem rebuild_past_teams (s : SessionState) :
    (rebuildFromRoster s).past_teams = s.past_teams := rfl

theorem process_winner_sym {s : SessionState}
    (ih : ∀ a b, a ∈ s.past_teams b ↔ b ∈ s.past_teams a) (cid : Nat)
    (winners : List Player) :
    ∀ a b, a ∈ (process_winner s cid winners).2.past_teams b ↔
      b ∈ (process_winner s cid winners).2.past_teams a := by
  unfold process_winner
  cases hget : s.courts.get? cid with
  | none => exact ih
  | some court =>
    simp only
    split
    · exact ih
    · split
      · exact ih
      · split
        · exact mark_team_sym (mark_team_sym ih _) _
        · exact mark_team_sym (mark_team_sym ih _) _

theorem reachable_sym {s : SessionState} (h : Reachable s) :
    ∀ a b, a ∈ s.past_teams b ↔ b ∈ s.past_teams a := by
  induction h with
  | init players nc mc hnd hmc => intro a b; simp [init_state]
  | assign s cid _ ih => rw [assign_past_teams]; exact ih
  | assignAll s _ ih => rw [assign_all_past_teams]; exact ih
  | win s cid winners _ ih => exact process_winner_sym ih cid winners
  | rebuild s _ ih => rw [rebuild_past_teams]; exact ih

/-! ## The streak table is only ever written with 0 or 1 -/

theorem streakUpd_refl (stk : Player → Streak) : StreakUpd stk stk :=
  fun _ => Or.inl rfl

theorem streakUpd_trans {a b c : Player → Streak}
    (h1 : StreakUpd a b) (h2 : StreakUpd b c) : StreakUpd a c := by
  intro p
  rcases h2 p with h | h | h <;> rcases h1 p with g | g | g <;>
    rw [h, g] <;> simp

theorem streakUpd_set {stk stk' : Player → Streak} (h : StreakUpd stk stk')
    (p : Player) {v : Nat} (hv : v = 0 ∨ v = 1) :
    StreakUpd stk (setOnCourt stk' p v) := by
  intro q
  by_cases hq : q = p
  · subst hq
    rw [setOnCourt_apply_self]
    rcases h q with g | g | g <;> rw [g] <;> rcases hv with rfl | rfl <;> simp
  · rw [setOnCourt_apply_ne _ _ _ hq]
    exact h q

theorem rotate_losers_streakUpd (losing : List (Option Player)) :
    ∀ (q : List Player) (stk stk0 : Player → Streak), StreakUpd stk0 stk →
    StreakUpd stk0 (rotate_losers losing q stk).2 := by
  induction losing with
  | nil => intro q stk stk0 h; exact h
  | cons l ls ih =>
    intro q stk stk0 h
    by_cases hl : truthy l
    · have step : rotate_losers (l :: ls) q stk
          = rotate_losers ls (q ++ [l.getD ""]) (setOnCourt stk (l.getD "") 0) := by
        simp [rotate_losers, rotate_step, hl]
      rw [step]
      exact ih _ _ _ (streakUpd_set h _ (Or.inl rfl))
    · have step : rotate_losers (l :: ls) q stk = rotate_losers ls q stk := by
        simp [rotate_losers, rotate_step, hl]
      rw [step]
      exact ih _ _ _ h

theorem split_keep_streakUpd (m : Nat) (winning : List (Option Player)) :
    ∀ (acc1 : List (Option Player)) (q : List Player) (stk stk0 : Player → Streak),
    StreakUpd stk0 stk →
    StreakUpd stk0 (winning.foldl (keep_step m) (acc1, q, stk)).2.2 := by
  induction winning with
  | nil => intro acc1 q stk stk0 h; exact h
  | cons w ws ih =>
    intro acc1 q stk stk0 h
    rw [List.foldl_cons]
    by_cases hw : streakOfOpt stk w < m
    · rw [show keep_step m (acc1, q, stk) w = (acc1 ++ [w], q, stk) by
        simp [keep_step, hw]]
      exact ih _ _ _ _ h
    · cases w with
      | none =>
        rw [show keep_step m (acc1, q, stk) none = (acc1, q, stk) by
          simp [keep_step, hw]]
        exact ih _ _ _ _ h
      | some p =>
        rw [show keep_step m (acc1, q, stk) (some p)
            = (acc1, q ++ [p], setOnCourt stk p 0) by simp [keep_step, hw]]
        exact ih _ _ _ _ (streakUpd_set h _ (Or.inl rfl))

theorem fill_one_streakUpd (pt : Player → List Player) (fs : FillSt) (idx : Nat)
    {stk0 : Player → Streak} (h : StreakUpd stk0 fs.streaks) :
    StreakUpd stk0 (fill_one pt fs idx).streaks := by
  obtain ⟨lay, q, stk⟩ := fs
  unfold fill_one
  cases hget : lay.get? idx with
  | none => exact h
  | some slot =>
    cases slot with
    | some p => exact h
    | none =>
      simp only
      rcases hsc : scan_queue pt (if idx = 0 ∨ idx = 1 then (lay.take 2).filterMap id
        else (lay.drop 2).filterMap id) q.length q with ⟨cand, q1⟩
      cases cand with
      | some c =>
        simp only
        by_cases htr : truthy (some c)
        · simp only [htr, if_true]
          exact streakUpd_set h _ (Or.inr rfl)
        · simp only [htr, Bool.false_eq_true, if_false]
          exact h
      | none =>
        cases q1 with
        | nil => exact h
        | cons c q2 =>
          simp only
          by_cases htr : truthy (some c)
          · simp only [htr, if_true]
            exact streakUpd_set h _ (Or.inr rfl)
          · simp only [htr, Bool.false_eq_true, if_false]
            exact h

theorem fill_fold_streakUpd (pt : Player → List Player) :
    ∀ (idxs : List Nat) (fs : FillSt) {stk0 : Player → Streak},
    StreakUpd stk0 fs.streaks →
    StreakUpd stk0 (idxs.foldl (fill_one pt) fs).streaks := by
  intro idxs
  induction idxs with
  | nil => intro fs stk0 h; exact h
  | cons i idxs ih =>
    intro fs stk0 h
    rw [List.foldl_cons]
    exact ih _ (fill_one_streakUpd pt fs i h)

theorem process_winner_streakUpd (s : SessionState) (cid : Nat)
    (winners : List Player) :
    StreakUpd s.streaks (process_winner s cid winners).2.streaks := by
  unfold process_winner
  cases hget : s.courts.get? cid with
  | none => exact streakUpd_refl _
  | some court =>
    simp only
    split
    · exact streakUpd_refl _
    · split
      · exact streakUpd_refl _
      · split <;>
        · simp only
          apply fill_fold_streakUpd
          apply split_keep_streakUpd
          apply rotate_losers_streakUpd
          exact streakUpd_refl _

theorem assign_step_streakUpd
    {acc : List (Option Player) × List Player × (Player → Streak)} (i : Nat)
    {stk0 : Player → Streak} (h : StreakUpd stk0 acc.2.2) :
    StreakUpd stk0 (assign_step acc i).2.2 := by
  obtain ⟨c, q, stk⟩ := acc
  unfold assign_step
  cases hget : c.get? i with
  | none => exact h
  | some slot =>
    cases slot with
    | some p => exact h
    | none =>
      cases q with
      | nil => exact h
      | cons p q' => exact streakUpd_set h _ (Or.inr rfl)

theorem assign_streakUpd (s : SessionState) (cid : Nat) :
    StreakUpd s.streaks (assign_players_to_court s cid).streaks := by
  unfold assign_players_to_court
  cases hget : s.courts.get? cid with
  | none => exact streakUpd_refl _
  | some court =>
    simp only
    have : ∀ (idxs : List Nat)
        (acc : List (Option Player) × List Player × (Player → Streak)),
        StreakUpd s.streaks acc.2.2 →
        StreakUpd s.streaks (idxs.foldl assign_step acc).2.2 := by
      intro idxs
      induction idxs with
      | nil => intro acc h; exact h
      | cons i idxs ih =>
        intro acc h
        rw [List.foldl_cons]
        exact ih _ (assign_step_streakUpd i h)
    exact this [0, 1, 2, 3] (court, s.queue, s.streaks) (streakUpd_refl _)

theorem assign_all_streakUpd (s : SessionState) :
    StreakUpd s.streaks (assign_all_courts s).streaks := by
  unfold assign_all_courts
  generalize List.range s.courts.length = idxs
  induction idxs generalizing s with
  | nil => exact streakUpd_refl _
  | cons i idxs ih =>
    rw [List.foldl_cons]
    exact streakUpd_trans (assign_streakUpd s i) (ih _)

theorem reachable_streaks {s : SessionState} (h : Reachable s) :
    ∀ p, (s.streaks p).on_court ≤ 1 ∧ (s.streaks p).overall = 0 := by
  induction h with
  | init players nc mc hnd hmc => intro p; exact ⟨Nat.zero_le 1, rfl⟩
  | assign s cid _ ih =>
    intro p
    rcases assign_streakUpd s cid p with h | h | h <;> rw [h] <;>
      first
        | exact ih p
        | exact ⟨by simp, (ih p).2⟩
  | assignAll s _ ih =>
    intro p
    rcases assign_all_streakUpd s p with h | h | h <;> rw [h] <;>
      first
        | exact ih p
        | exact ⟨by simp, (ih p).2⟩
  | win s cid winners _ ih =>
    intro p
    rcases process_winner_streakUpd s cid winners p with h | h | h <;> rw [h] <;>
      first
        | exact ih p
        | exact ⟨by simp, (ih p).2⟩
  | rebuild s _ ih => exact ih

/-! ## Equivalence of assignment with its specification reading -/

theorem assign_fold_eq_spec : ∀ (court : List (Option Player)) (q : List Player)
    (stk : Player → Streak), court.length = 4 →
    [0, 1, 2, 3].foldl assign_step (court, q, stk) = assignSpecFill court q stk := by
  intro court q stk hlen
  rcases court with _ | ⟨a, court⟩
  · simp at hlen
  rcases court with _ | ⟨b, court⟩
  · simp at hlen
  rcases court with _ | ⟨c, court⟩
  · simp at hlen
  rcases court with _ | ⟨d, court⟩
  · simp at hlen
  have hnil : court = [] := by
    cases court with
    | nil => rfl
    | cons e t => simp at hlen
  subst hnil
  cases a <;> cases b <;> cases c <;> cases d <;>
    rcases q with _ | ⟨q1, _ | ⟨q2, _ | ⟨q3, _ | ⟨q4, qr⟩⟩⟩⟩ <;> rfl

theorem assign_step_full {court : List (Option Player)}
    (hfull : ∀ sl ∈ court, sl ≠ none) (q : List Player) (stk : Player → Streak)
    (i : Nat) : assign_step (court, q, stk) i = (court, q, stk) := by
  unfold assign_step
  cases hget : court.get? i with
  | none => rfl
  | some sl =>
    cases hsl : sl with
    | some p => rfl
    | none => exact absurd rfl (hsl ▸ hfull sl (List.get?_mem hget))

theorem assign_full_noop {s : SessionState} {cid : Nat} {court : List (Option Player)}
    (hget : s.courts.get? cid = some court)
    (hfull : ∀ sl ∈ court, sl ≠ none) :
    assign_players_to_court s cid = s := by
  unfold assign_players_to_court
  rw [hget]
  have hfold : [0, 1, 2, 3].foldl assign_step (court, s.queue, s.streaks)
      = (court, s.queue, s.streaks) := by
    have h1 : ∀ idxs : List Nat, idxs.foldl assign_step (court, s.queue, s.streaks)
        = (court, s.queue, s.streaks) := by
      intro idxs
      induction idxs with
      | nil => rfl
      | cons i idxs ih => rw [List.foldl_cons, assign_step_full hfull _ _ i, ih]
    exact h1 _
  simp only
  rw [hfold]
  simp only
  rw [set_same hget]

/-! ## The code conflict test agrees with the spec's reading -/

theorem conflicts_eq_spec {pt : Player → List Player} {tms : List Player} {p : Player}
    (hsym : ∀ tm ∈ tms, (p ∈ pt tm ↔ tm ∈ pt p))
    (hne : ∀ tm ∈ tms, tm ≠ "") :
    conflicts pt tms p = specConflict pt tms p := by
  unfold conflicts specConflict
  induction tms with
  | nil => rfl
  | cons t ts ih =>
    simp only [List.any_cons]
    rw [ih (fun tm h => hsym tm (List.mem_cons_of_mem t h))
      (fun tm h => hne tm (List.mem_cons_of_mem t h))]
    have h1 : (decide ¬ t = "") = true := by
      simp [hne t (List.mem_cons_self t ts)]
    have h2 : (decide (p ∈ pt t)) = decide (t ∈ pt p) :=
      decide_eq_decide.mpr (hsym t (List.mem_cons_self t ts))
    rw [show (t ≠ "" : Bool) = decide ¬ t = "" from rfl] at *
    rw [h1, h2]
    simp

/-! ## Keeping both winners when the limit is not yet reached -/

theorem split_keep_all (m : Nat) (winning : List (Option Player)) (q : List Player)
    (stk : Player → Streak) (hstk : ∀ p, (stk p).on_court ≤ 1) (hm : 2 ≤ m) :
    split_keep m winning q stk = (winning, q, stk) := by
  unfold split_keep
  have : ∀ (ws : List (Option Player)) (acc1 : List (Option Player)),
      ws.foldl (keep_step m) (acc1, q, stk) = (acc1 ++ ws, q, stk) := by
    intro ws
    induction ws with
    | nil => intro acc1; simp
    | cons w ws ih =>
      intro acc1
      have hlt : streakOfOpt stk w < m := by
        cases w with
        | none => exact (show (0 : Nat) < m by omega)
        | some p => exact Nat.lt_of_le_of_lt (hstk p) (show (1 : Nat) < m by omega)
      rw [List.foldl_cons, show keep_step m (acc1, q, stk) w = (acc1 ++ [w], q, stk) by
        simp [keep_step, hlt], ih]
      simp
  simpa using this winning []

theorem streakUpd_overall {stk stk' : Player → Streak} (h : StreakUpd stk stk')
    (p : Player) : (stk' p).overall = (stk p).overall := by
  rcases h p with h1 | h1 | h1 <;> rw [h1]

/-! ## Validation behavior of win processing -/

theorem process_winner_invalid_winners {s : SessionState} {cid : Nat}
    {court : List (Option Player)} {winners : List Player}
    (hget : s.courts.get? cid = some court)
    (hbad : ¬ winners.all (fun w => some w ∈ court) = true) :
    process_winner s cid winners = (some Err.invalidWinners, s) := by
  unfold process_winner
  rw [hget]
  simp only
  rw [if_pos hbad]

theorem process_winner_invalid_count {s : SessionState} {cid : Nat}
    {court : List (Option Player)} {winners : List Player}
    (hget : s.courts.get? cid = some court)
    (hok : winners.all (fun w => some w ∈ court) = true)
    (hbad : winners.dedup.length ≠ 2) :
    process_winner s cid winners = (some Err.invalidWinnerCount, s) := by
  unfold process_winner
  rw [hget]
  simp only
  rw [if_neg (by simp [hok]), if_pos hbad]

theorem process_winner_success_history {s : SessionState} {cid : Nat}
    {court : List (Option Player)} {winners : List Player}
    (hget : s.courts.get? cid = some court)
    (hok : winners.all (fun w => some w ∈ court) = true)
    (hcount : winners.dedup.length = 2) :
    (process_winner s cid winners).1 = none ∧
    (process_winner s cid winners).2.history = s.history ++
      [⟨cid, court.take 2, court.drop 2,
        if pySetEq (winners.map some) (court.take 2) then court.take 2
        else court.drop 2⟩] := by
  unfold process_winner
  rw [hget]
  simp only
  rw [if_neg (by simp [hok]), if_neg (by simp [hcount])]
  by_cases hw : pySetEq (winners.map some) (court.take 2) = true
  · rw [if_pos hw]
    simp only [hw, if_true]
    exact ⟨trivial, trivial⟩
  · rw [if_neg hw]
    simp only [hw]
    simp only [Bool.false_eq_true, if_false]
    exact ⟨trivial, trivial⟩

/-! ## Claim theorems -/

/-- Claim C1 (counterexample): on a court seating A,B (Team 1) and C,D
(Team 2), calling `process_winner` with winners A and C — two distinct
seated players whose set equals neither team's slot-set — does NOT fail
with `InvalidWinners` and DOES mutate the session state (a game record is
appended), contradicting the claim as stated. -/
theorem claim_C1_counterexample :
    sFull.courts.get? 0 = some [some "A", some "B", some "C", some "D"] ∧
    (["A", "C"].all
      (fun w => some w ∈ [some "A", some "B", some "C", some "D"])) = true ∧
    ["A", "C"].dedup.length = 2 ∧
    pySetEq (["A", "C"].map some) [some "A", some "B"] = false ∧
    pySetEq (["A", "C"].map some) [some "C", some "D"] = false ∧
    (process_winner sFull 0 ["A", "C"]).1 ≠ some Err.invalidWinners ∧
    (process_winner sFull 0 ["A", "C"]).2.history ≠ sFull.history := by
  decide

/-- Claim C1 (amended): when `process_winner` is called with two distinct
winners both seated on the court but whose set equals neither team's
slot-set, the call does not fail: the source's two-way branch (line 128-131)
falls through to treating Team 2 (slots 2-3) as the winning team and
Team 1 as the losing team, and mutates state accordingly — observed here
through the success result and the appended game record naming Team 2 as
winner. -/
theorem claim_C1 {s : SessionState} {cid : Nat} {court : List (Option Player)}
    {winners : List Player}
    (hget : s.courts.get? cid = some court)
    (hok : winners.all (fun w => some w ∈ court) = true)
    (hcount : winners.dedup.length = 2)
    (hm1 : pySetEq (winners.map some) (court.take 2) = false)
    (_hm2 : pySetEq (winners.map some) (court.drop 2) = false) :
    (process_winner s cid winners).1 = none ∧
    (process_winner s cid winners).2.history =
      s.history ++ [⟨cid, court.take 2, court.drop 2, court.drop 2⟩] := by
  obtain ⟨h1, h2⟩ := process_winner_success_history hget hok hcount
  refine ⟨h1, ?_⟩
  rw [h2]
  simp [hm1]

/-- Witness for the amended C1 at a concrete input. -/
theorem claim_C1_witness :
    (process_winner sFull 0 ["A", "C"]).1 = none ∧
    (process_winner sFull 0 ["A", "C"]).2.history =
      sFull.history ++ [⟨0, [some "A", some "B"], [some "C", some "D"],
        [some "C", some "D"]⟩] :=
  @claim_C1 sFull 0 [some "A", some "B", some "C", some "D"] ["A", "C"]
    (by decide) (by decide) (by decide) (by decide) (by decide)

/-- Claim C6: if some supplied winner is not seated on the court, the
call fails with `InvalidWinners`; if all are seated but the winners are
not exactly two distinct identifiers, it fails with `InvalidWinnerCount`;
in both cases the returned state is exactly the input state — nothing
(court, queue, streaks, pairing history, game history) is mutated. -/
theorem claim_C6 {s : SessionState} {cid : Nat} {court : List (Option Player)}
    {winners : List Player} (hget : s.courts.get? cid = some court) :
    ((∃ w ∈ winners, some w ∉ court) →
      process_winner s cid winners = (some Err.invalidWinners, s)) ∧
    ((∀ w ∈ winners, some w ∈ court) → winners.dedup.length ≠ 2 →
      process_winner s cid winners = (some Err.invalidWinnerCount, s)) := by
  constructor
  · rintro ⟨w, hw, hnot⟩
    apply process_winner_invalid_winners hget
    simp only [List.all_eq_true, decide_eq_true_eq]
    intro hall
    exact hnot (hall w hw)
  · intro hall hbad
    apply process_winner_invalid_count hget ?_ hbad
    simp only [List.all_eq_true, decide_eq_true_eq]
    exact hall

/-- Witness for C6 at concrete inputs: an unseated winner and a
duplicated winner, each leaving the state untouched. -/
theorem claim_C6_witness :
    process_winner sFull 0 ["A", "Z"] = (some Err.invalidWinners, sFull) ∧
    process_winner sFull 0 ["A", "A"] = (some Err.invalidWinnerCount, sFull) := by
  constructor
  · exact (@claim_C6 sFull 0 [some "A", some "B", some "C", some "D"] ["A", "Z"]
      (by decide)).1 ⟨"Z", by decide, by decide⟩
  · exact (@claim_C6 sFull 0 [some "A", some "B", some "C", some "D"] ["A", "A"]
      (by decide)).2 (by decide) (by decide)

/-- Claim C2 (counterexample): the trace init → assignAllCourts →
rebuildFromRoster is reachable by engine operations, yet afterwards
player A is simultaneously in the Queue and seated in a court slot:
`rebuildFromRoster` re-enqueues every active player regardless of
seating, violating the claimed invariant. -/
theorem claim_C2_counterexample :
    Reachable sDupTrace ∧ "A" ∈ sDupTrace.queue ∧ "A" ∈ allSeated sDupTrace := by
  refine ⟨?_, by decide, by decide⟩
  exact Reachable.rebuild _ (Reachable.assignAll _
    (Reachable.init ["A", "B", "C", "D"] 1 2 (by decide) (by decide)))

/-- Claim C2 (amended): in every state reachable from a fresh state by
`assignToCourt`, `assignAllCourts` and `processWin` (but not
`rebuildFromRoster`), the queue plus all seated players form a
duplicate-free list; hence no player is both queued and seated, and no
player occupies two slots across the court bank.  `rebuildFromRoster`
breaks this by re-enqueuing active players who are still seated. -/
theorem claim_C2 {s : SessionState} (h : ReachableCore s) :
    (s.queue ++ allSeated s).Nodup ∧
    ∀ p, ¬ (p ∈ s.queue ∧ p ∈ allSeated s) := by
  have hi := reachableCore_inv h
  refine ⟨hi.1, ?_⟩
  rintro p ⟨hq, hseat⟩
  exact (List.nodup_append.mp hi.1).2.2 hq hseat

/-- Witness for the amended C2 at a concrete reachable state. -/
theorem claim_C2_witness :
    ((assign_all_courts (init_state ["A", "B", "C", "D"] 1 2)).queue ++
      allSeated (assign_all_courts (init_state ["A", "B", "C", "D"] 1 2))).Nodup ∧
    ∀ p, ¬ (p ∈ (assign_all_courts (init_state ["A", "B", "C", "D"] 1 2)).queue ∧
      p ∈ allSeated (assign_all_courts (init_state ["A", "B", "C", "D"] 1 2))) :=
  claim_C2 (ReachableCore.assignAll _
    (ReachableCore.init ["A", "B", "C", "D"] 1 2 (by decide) (by decide)))

/-- Claim C3 (counterexample): after init → assignAllCourts →
rebuildFromRoster — a sequence of engine operations from a fresh state —
player A sits in the Queue with `onCourt` streak 1, not 0. -/
theorem claim_C3_counterexample :
    Reachable sDupTrace ∧ "A" ∈ sDupTrace.queue ∧
    (sDupTrace.streaks "A").on_court ≠ 0 := by
  refine ⟨?_, by decide, by decide⟩
  exact Reachable.rebuild _ (Reachable.assignAll _
    (Reachable.init ["A", "B", "C", "D"] 1 2 (by decide) (by decide)))

/-- Claim C3 (amended): in every state reachable without
`rebuildFromRoster`, queued players have `onCourt` streak 0 and seated
players have streak in `[1, maxConsecutiveGames]`.  With
`rebuildFromRoster` included the claim fails, since a rebuild can put a
seated player (streak 1) into the Queue. -/
theorem claim_C3 {s : SessionState} (h : ReachableCore s) :
    (∀ p ∈ s.queue, (s.streaks p).on_court = 0) ∧
    (∀ p ∈ allSeated s, 1 ≤ (s.streaks p).on_court ∧
      (s.streaks p).on_court ≤ s.max_consec_games) := by
  have hi := reachableCore_inv h
  refine ⟨hi.2.1, fun p hp => ?_⟩
  rw [hi.2.2.1 p hp]
  exact ⟨le_refl 1, hi.2.2.2.2⟩

/-- Witness for the amended C3 at a concrete reachable state. -/
theorem claim_C3_witness :
    (∀ p ∈ (assign_players_to_court (init_state ["A", "B", "C", "D"] 1 2) 0).queue,
      (((assign_players_to_court (init_state ["A", "B", "C", "D"] 1 2) 0)).streaks p).on_court
        = 0) ∧
    (∀ p ∈ allSeated (assign_players_to_court (init_state ["A", "B", "C", "D"] 1 2) 0),
      1 ≤ (((assign_players_to_court (init_state ["A", "B", "C", "D"] 1 2) 0)).streaks p).on_court ∧
      (((assign_players_to_court (init_state ["A", "B", "C", "D"] 1 2) 0)).streaks p).on_court
        ≤ (assign_players_to_court (init_state ["A", "B", "C", "D"] 1 2) 0).max_consec_games) :=
  claim_C3 (ReachableCore.assign _ 0
    (ReachableCore.init ["A", "B", "C", "D"] 1 2 (by decide) (by decide)))

/-- Claim C4: one slot-filling step of `process_winner` (lines 173-200)
behaves as specified.  With slot `idx` of the layout empty and `tms` the
players already provisionally placed in the same team half: (a) if the
queue splits as `pre ++ p :: post` where every `pre` member's pairing
history conflicts with `tms` and `p` is conflict-free, then `p` is placed
in the slot with `onCourt` streak set to 1, and the skipped candidates
`pre` are re-appended at the queue tail; (b) if every queued player
conflicts, the queue head is dequeued unconditionally into the slot with
streak 1; (c) an empty queue leaves the slot empty.  The conflict test is
stated as in the spec (the candidate's own history contains a placed
teammate), which agrees with the source's mirror-image test on symmetric
histories with non-empty names. -/
theorem claim_C4 (pt : Player → List Player) (lay : List (Option Player))
    (q : List Player) (stk : Player → Streak) (idx : Nat) (tms : List Player)
    (hget : lay.get? idx = some none)
    (htms : tms = if idx = 0 ∨ idx = 1 then (lay.take 2).filterMap id
      else (lay.drop 2).filterMap id)
    (hsym : ∀ tm ∈ tms, ∀ x ∈ q, (x ∈ pt tm ↔ tm ∈ pt x))
    (hne : ∀ tm ∈ tms, tm ≠ "")
    (hq : "" ∉ q) :
    (∀ pre p post, q = pre ++ p :: post →
      (∀ x ∈ pre, specConflict pt tms x = true) → specConflict pt tms p = false →
      fill_one pt ⟨lay, q, stk⟩ idx =
        ⟨lay.set idx (some p), post ++ pre, setOnCourt stk p 1⟩) ∧
    ((∀ x ∈ q, specConflict pt tms x = true) →
      ∀ p post, q = p :: post →
      fill_one pt ⟨lay, q, stk⟩ idx =
        ⟨lay.set idx (some p), post, setOnCourt stk p 1⟩) ∧
    (q = [] → fill_one pt ⟨lay, q, stk⟩ idx = ⟨lay, [], stk⟩) := by
  have hbridge : ∀ x ∈ q, conflicts pt tms x = specConflict pt tms x := fun x hx =>
    conflicts_eq_spec (fun tm htm => hsym tm htm x hx) hne
  refine ⟨?_, ?_, ?_⟩
  · intro pre p post hqeq hpre hp
    have hpmem : p ∈ q := hqeq ▸ List.mem_append_right _ (List.mem_cons_self p post)
    have hp' : ¬ p = "" := fun e => hq (e ▸ hpmem)
    have hscan : scan_queue pt tms q.length q = (some p, post ++ pre) := by
      rw [hqeq]
      apply scan_queue_found
      · intro x hx
        rw [hbridge x (hqeq ▸ List.mem_append_left _ hx)]
        exact hpre x hx
      · rw [hbridge p hpmem]
        exact hp
      · simp
    unfold fill_one
    cases hg2 : lay.get? idx with
    | none => rw [hget] at hg2; cases hg2
    | some slot =>
      rw [hget] at hg2
      injection hg2 with hslot
      subst hslot
      simp only
      rw [← htms, hscan]
      simp [truthy, hp']
  · intro hconf p post hqeq
    have hpmem : p ∈ q := hqeq ▸ List.mem_cons_self p post
    have hp' : ¬ p = "" := fun e => hq (e ▸ hpmem)
    have hscan : scan_queue pt tms q.length q = (none, q) := by
      apply scan_queue_none
      intro x hx
      rw [hbridge x hx]
      exact hconf x hx
    unfold fill_one
    cases hg2 : lay.get? idx with
    | none => rw [hget] at hg2; cases hg2
    | some slot =>
      rw [hget] at hg2
      injection hg2 with hslot
      subst hslot
      simp only
      rw [← htms, hscan, hqeq]
      simp [truthy, hp']
  · intro hqeq
    subst hqeq
    unfold fill_one
    cases hg2 : lay.get? idx with
    | none => rw [hget] at hg2
    | some slot =>
      rw [hget] at hg2
      injection hg2 with hslot
      subst hslot
      simp only
      rw [← htms]
      rfl

/-- Witness for C4 at concrete inputs: with A placed in slot 0 and A,B
former teammates, filling slot 1 from queue [B, C] skips B (re-appending
it at the tail) and places C; and with queue [B] every candidate
conflicts, so B is dequeued unconditionally into the slot. -/
theorem claim_C4_witness :
    fill_one (fun p => if p = "A" then ["B"] else if p = "B" then ["A"] else [])
        ⟨[some "A", none, none, none], ["B", "C"], fun _ => ⟨0, 0⟩⟩ 1 =
      ⟨[some "A", some "C", none, none], [] ++ ["B"],
        setOnCourt (fun _ => ⟨0, 0⟩) "C" 1⟩ ∧
    fill_one (fun p => if p = "A" then ["B"] else if p = "B" then ["A"] else [])
        ⟨[some "A", none, none, none], ["B"], fun _ => ⟨0, 0⟩⟩ 1 =
      ⟨[some "A", some "B", none, none], [],
        setOnCourt (fun _ => ⟨0, 0⟩) "B" 1⟩ := by
  constructor
  · exact (claim_C4 (fun p => if p = "A" then ["B"] else if p = "B" then ["A"] else [])
      [some "A", none, none, none] ["B", "C"] (fun _ => ⟨0, 0⟩) 1 ["A"]
      (by decide) (by decide) (by decide) (by decide) (by decide)).1
      ["B"] "C" [] rfl (by decide) (by decide)
  · exact (claim_C4 (fun p => if p = "A" then ["B"] else if p = "B" then ["A"] else [])
      [some "A", none, none, none] ["B"] (fun _ => ⟨0, 0⟩) 1 ["A"]
      (by decide) (by decide) (by decide) (by decide) (by decide)).2.1
      (by decide) "B" [] rfl

/-- Claim C5: the loser/winner bookkeeping of a successful
`process_winner` call (lines 148-170).  (1) The loser rotation appends
every losing player (empty or falsy slots skipped) at the queue tail and
resets their `onCourt` streak to 0.  (2) The winner split then keeps
exactly the winners whose current streak is strictly below
`maxConsecutiveGames` and appends every other winner at the queue tail
with streak reset to 0.  (3) The new layout places 2 kept winners in
slots 0 and 2 (opposite team halves), 1 kept winner in slot 0 only, and
starts fully empty with 0 kept. -/
theorem claim_C5 (m : Nat) (losing winning : List (Option Player)) (q : List Player)
    (stk : Player → Streak) (hnd : (winning.filterMap id).Nodup) :
    rotate_losers losing q stk
        = (q ++ truthyList losing, zeroStreaks (truthyList losing) stk) ∧
    split_keep m winning q stk
        = (winning.filter (fun w => streakOfOpt stk w < m),
           q ++ pushedOf m stk winning,
           zeroStreaks (pushedOf m stk winning) stk) ∧
    seed_layout [] = [none, none, none, none] ∧
    (∀ k0, seed_layout [k0] = [k0, none, none, none]) ∧
    (∀ k0 k1, seed_layout [k0, k1] = [k0, none, k1, none]) :=
  ⟨rotate_losers_eq losing q stk, split_keep_eq m winning q stk hnd,
    rfl, fun _ => rfl, fun _ _ => rfl⟩

/-- Witness for C5 at a concrete input (Scenario C of the spec: both
winners at the streak limit are re-enqueued with streak 0). -/
theorem claim_C5_witness :
    rotate_losers [some "C", some "D"] [] (fun _ => ⟨1, 0⟩)
        = ([] ++ truthyList [some "C", some "D"],
           zeroStreaks (truthyList [some "C", some "D"]) (fun _ => ⟨1, 0⟩)) ∧
    split_keep 1 [some "A", some "B"] [] (fun _ => ⟨1, 0⟩)
        = ([some "A", some "B"].filter
             (fun w => streakOfOpt (fun _ => ⟨1, 0⟩) w < 1),
           [] ++ pushedOf 1 (fun _ => ⟨1, 0⟩) [some "A", some "B"],
           zeroStreaks (pushedOf 1 (fun _ => ⟨1, 0⟩) [some "A", some "B"])
             (fun _ => ⟨1, 0⟩)) ∧
    seed_layout [] = [none, none, none, none] ∧
    (∀ k0, seed_layout [k0] = [k0, none, none, none]) ∧
    (∀ k0 k1, seed_layout [k0, k1] = [k0, none, k1, none]) := by
  have h1 := claim_C5 1 [some "C", some "D"] [some "A", some "B"] []
    (fun _ => ⟨1, 0⟩) (by decide)
  exact ⟨h1.1, h1.2.1, h1.2.2.1, h1.2.2.2.1, h1.2.2.2.2⟩

/-- Claim C7: `assign_players_to_court` fills each empty slot in slot
order 0→3 with the player popped from the Queue front, setting that
player's streak to 1, and leaves slots empty once the queue is exhausted
(stated as equality with the spec-level recursion `assignSpecFill`);
consequently with Queue = P1..P8 and two empty courts, `assign_all_courts`
seats P1-P4 on court 1 and P5-P8 on court 2 leaving the queue empty; and
assigning an already-full court changes nothing. -/
theorem claim_C7 :
    (∀ (s : SessionState) (cid : Nat) (court : List (Option Player)),
      s.courts.get? cid = some court → court.length = 4 →
      assign_players_to_court s cid =
        { s with
          courts := s.courts.set cid (assignSpecFill court s.queue s.streaks).1
          queue := (assignSpecFill court s.queue s.streaks).2.1
          streaks := (assignSpecFill court s.queue s.streaks).2.2 }) ∧
    ((assign_all_courts (init_state
        ["P1", "P2", "P3", "P4", "P5", "P6", "P7", "P8"] 2 2)).courts =
      [[some "P1", some "P2", some "P3", some "P4"],
       [some "P5", some "P6", some "P7", some "P8"]] ∧
      (assign_all_courts (init_state
        ["P1", "P2", "P3", "P4", "P5", "P6", "P7", "P8"] 2 2)).queue = []) ∧
    (∀ (s : SessionState) (cid : Nat) (court : List (Option Player)),
      s.courts.get? cid = some court → (∀ sl ∈ court, sl ≠ none) →
      assign_players_to_court s cid = s) := by
  refine ⟨?_, ⟨by decide, by decide⟩, fun s cid court hget hfull =>
    assign_full_noop hget hfull⟩
  intro s cid court hget hlen
  unfold assign_players_to_court
  rw [hget]
  simp only
  rw [assign_fold_eq_spec court s.queue s.streaks hlen]

/-- Witness for C7: the spec-level recursion agrees with the loop on a
half-filled court, and an already-full court is untouched. -/
theorem claim_C7_witness :
    assign_players_to_court
        { sFull with courts := [[some "A", none, some "B", none]], queue := ["C"] } 0 =
      { { sFull with courts := [[some "A", none, some "B", none]], queue := ["C"] } with
        courts := [[some "A", none, some "B", none]].set 0
          (assignSpecFill [some "A", none, some "B", none] ["C"] sFull.streaks).1
        queue := (assignSpecFill [some "A", none, some "B", none] ["C"] sFull.streaks).2.1
        streaks :=
          (assignSpecFill [some "A", none, some "B", none] ["C"] sFull.streaks).2.2 } ∧
    assign_players_to_court sFull 0 = sFull := by
  constructor
  · exact claim_C7.1 _ 0 [some "A", none, some "B", none] (by decide) (by decide)
  · exact claim_C7.2.2 sFull 0 [some "A", some "B", some "C", some "D"]
      (by decide) (by decide)

/-- Claim C8: in every reachable session state the pairing history is
symmetric — `a ∈ history[b] ↔ b ∈ history[a]` — because `mark_pairing`
is a symmetric idempotent insert and every operation records pairings
only through it. -/
theorem claim_C8 {s : SessionState} (h : Reachable s) :
    ∀ a b, a ∈ s.past_teams b ↔ b ∈ s.past_teams a :=
  reachable_sym h

/-- Witness for C8 at a concrete reachable state whose history is
non-empty (a full game has been processed on court 0). -/
theorem claim_C8_witness :
    "A" ∈ (process_winner (assign_players_to_court
        (init_state ["A", "B", "C", "D"] 1 2) 0) 0 ["A", "B"]).2.past_teams "B" ↔
      "B" ∈ (process_winner (assign_players_to_court
        (init_state ["A", "B", "C", "D"] 1 2) 0) 0 ["A", "B"]).2.past_teams "A" :=
  claim_C8 (Reachable.win _ 0 ["A", "B"] (Reachable.assign _ 0
    (Reachable.init ["A", "B", "C", "D"] 1 2 (by decide) (by decide)))) "A" "B"

/-- Claim C9: no engine operation ever raises an `onCourt` streak above
1 — every write is a reset to 0 or a seat-entry set to 1, and a kept
winner's streak is left unchanged — so in every reachable state every
streak is 0 or 1; consequently whenever the streak table satisfies this
bound and `maxConsecutiveGames ≥ 2`, the keep test of step 6 keeps every
winner. -/
theorem claim_C9 {s : SessionState} (h : Reachable s) :
    (∀ p, (s.streaks p).on_court ≤ 1) ∧
    (2 ≤ s.max_consec_games →
      ∀ (winning : List (Option Player)) (q : List Player),
        split_keep s.max_consec_games winning q s.streaks
          = (winning, q, s.streaks)) := by
  have hb : ∀ p, (s.streaks p).on_court ≤ 1 := fun p => (reachable_streaks h p).1
  exact ⟨hb, fun hm winning q => split_keep_all _ _ _ _ hb hm⟩

/-- Witness for C9 at a concrete reachable state: after a processed game
all streaks are still at most 1 and, with the limit at 2, the keep test
keeps both seated winners. -/
theorem claim_C9_witness :
    (∀ p, (((process_winner (assign_players_to_court
        (init_state ["A", "B", "C", "D"] 1 2) 0) 0 ["A", "B"]).2).streaks p).on_court
          ≤ 1) ∧
    split_keep 2 [some "A", some "C"] []
        ((process_winner (assign_players_to_court
          (init_state ["A", "B", "C", "D"] 1 2) 0) 0 ["A", "B"]).2).streaks
      = ([some "A", some "C"], [],
         ((process_winner (assign_players_to_court
           (init_state ["A", "B", "C", "D"] 1 2) 0) 0 ["A", "B"]).2).streaks) := by
  have h := claim_C9 (Reachable.win _ 0 ["A", "B"] (Reachable.assign _ 0
    (Reachable.init ["A", "B", "C", "D"] 1 2 (by decide) (by decide))))
  exact ⟨h.1, h.2 (by decide) [some "A", some "C"] []⟩

/-- Claim C10: the `overall` lifetime-games counter is dead state — no
engine operation (`assignToCourt`, `assignAllCourts`, `processWin`,
`rebuildFromRoster`) ever changes any player's `overall` counter, and in
every reachable state it still equals its initial value 0. -/
theorem claim_C10 :
    (∀ (s : SessionState) (cid : Nat) (p : Player),
      ((assign_players_to_court s cid).streaks p).overall = (s.streaks p).overall) ∧
    (∀ (s : SessionState) (p : Player),
      ((assign_all_courts s).streaks p).overall = (s.streaks p).overall) ∧
    (∀ (s : SessionState) (cid : Nat) (winners : List Player) (p : Player),
      (((process_winner s cid winners).2).streaks p).overall
        = (s.streaks p).overall) ∧
    (∀ (s : SessionState) (p : Player),
      ((rebuildFromRoster s).streaks p).overall = (s.streaks p).overall) ∧
    (∀ s : SessionState, Reachable s → ∀ p, (s.streaks p).overall = 0) := by
  refine ⟨fun s cid p => streakUpd_overall (assign_streakUpd s cid) p,
    fun s p => streakUpd_overall (assign_all_streakUpd s) p,
    fun s cid winners p => streakUpd_overall (process_winner_streakUpd s cid winners) p,
    fun s p => rfl,
    fun s h p => (reachable_streaks h p).2⟩

/-- Witness for C10's reachable-state conjunct at a concrete state. -/
theorem claim_C10_witness :
    (((process_winner (assign_players_to_court
        (init_state ["A", "B", "C", "D"] 1 2) 0) 0 ["A", "B"]).2).streaks "A").overall
      = 0 :=
  claim_C10.2.2.2.2 _ (Reachable.win _ 0 ["A", "B"] (Reachable.assign _ 0
    (Reachable.init ["A", "B", "C", "D"] 1 2 (by decide) (by decide)))) "A"
